import Mathlib

/-!
# chess-Board: board model, move generation and alpha-beta search

A shallow embedding of `chess-Board.cpp`.

* `char board[8][8]` is a vector of eight rows of eight `Char`s, row index first.
* A `Move` holds four unbounded integers, as the C++ struct holds four `int`s.
* An array access whose index falls outside `[0, 8)` is undefined behaviour in
  the source; the embedding makes it explicit by returning `none`.
* The in-place mutation of the board by the search is explicit state passing:
  every search function returns the board it leaves behind next to its value.
* The recursion of `minimax` is driven by a `fuel : Nat` that bounds the number
  of nested `minimax` frames; `none` means "no normal return within that many
  frames" (out of fuel, or undefined behaviour was reached).
* An `int` is an `Int`. The search only compares and copies its values, except
  for `depth - 1`, which is undefined at `INT_MIN` and modelled as such.
* A move text, a `std::string`, is a list of bytes. Whether plain `char` is
  signed is left to the implementation, so the promotion of a `char` to `int`
  takes it as a parameter, and what is proved holds for both.
-/

namespace ChessBoard

/-! ## Data model -/

/-- The value of `std::numeric_limits<int>::min()` for a 32-bit `int`. -/
def INT_MIN : Int := -2147483648

/-- The value of `std::numeric_limits<int>::max()` for a 32-bit `int`. -/
def INT_MAX : Int := 2147483647

/-- The struct `Move` of the source: four `int` fields. -/
structure Move where
  startX : Int
  startY : Int
  endX : Int
  endY : Int
deriving DecidableEq, Repr

/-- The class `Board` of the source: its only data member is `char board[8][8]`,
eight rows of eight cells. -/
structure Board where
  board : Mathlib.Vector (Mathlib.Vector Char 8) 8
deriving DecidableEq

/-- The content of `board[i][j]` at known-good indices. -/
def Board.cell (b : Board) (i j : Fin 8) : Char :=
  (b.board.get i).get j

/-- The cell store `board[i][j] = c` at known-good indices. -/
def Board.set (b : Board) (i j : Fin 8) (c : Char) : Board :=
  ⟨b.board.set i ((b.board.get i).set j c)⟩

/-- An `int` used as an array index: defined only inside `[0, 8)`. -/
def toIndex (v : Int) : Option (Fin 8) :=
  if h : 0 ≤ v ∧ v < 8 then some ⟨v.toNat, by omega⟩ else none

/-- The read `board[y][x]` with `int` indices. -/
def Board.read (b : Board) (y x : Int) : Option Char :=
  match toIndex y, toIndex x with
  | some i, some j => some (b.cell i j)
  | _, _ => none

/-- The assignment `board[y][x] = c` with `int` indices. -/
def Board.write (b : Board) (y x : Int) (c : Char) : Option Board :=
  match toIndex y, toIndex x with
  | some i, some j => some (b.set i j c)
  | _, _ => none

/-! ## `Board` member functions -/

/-- The 64-character literal `initialBoard` of the constructor. -/
def initialBoard : List Char :=
  ("rnbqkbnr" ++ "pppppppp" ++ "........" ++ "........" ++
   "........" ++ "........" ++ "PPPPPPPP" ++ "RNBQKBNR").toList

/-- The constructor `Board::Board()`: starting from the uninitialised array it
runs `for (i = 0; i < 64; ++i) board[i / 8][i % 8] = initialBoard[i]`. -/
def Board.construct (uninit : Board) : Board :=
  (List.range 64).foldl
    (fun b i => b.set (Fin.ofNat (i / 8)) (Fin.ofNat (i % 8)) (initialBoard.getD i '\x00'))
    uninit

/-- The board of a fresh game. -/
def Board.start : Board :=
  Board.construct ⟨Mathlib.Vector.replicate 8 (Mathlib.Vector.replicate 8 '\x00')⟩

/-- The function `Board::isValidMove`; `&&` evaluates left to right, so the cell
is read only once the four bounds checks have passed. -/
def Board.isValidMove (b : Board) (move : Move) : Bool :=
  decide (move.startX ≥ 0) && decide (move.startX < 8) &&
  decide (move.startY ≥ 0) && decide (move.startY < 8) &&
  decide (move.endX ≥ 0) && decide (move.endX < 8) &&
  decide (move.endY ≥ 0) && decide (move.endY < 8) &&
  (match b.read move.startY move.startX with
   | some c => c != '.'
   | none => false)

/-- The function `Board::applyMove`. -/
def Board.applyMove (b : Board) (move : Move) : Option Board :=
  match b.read move.startY move.startX with
  | none => none
  | some p =>
    match b.write move.endY move.endX p with
    | none => none
    | some b1 => b1.write move.startY move.startX '.'

/-- The function `Board::undoMove`. -/
def Board.undoMove (b : Board) (move : Move) (capturedPiece : Char) : Option Board :=
  match b.read move.endY move.endX with
  | none => none
  | some p =>
    match b.write move.startY move.startX p with
    | none => none
    | some b1 => b1.write move.endY move.endX capturedPiece

/-- The function `Board::pieceAt`, which returns `board[y][x]`. -/
def Board.pieceAt (b : Board) (x y : Int) : Option Char :=
  b.read y x

/-- The values taken by the loop variables `y` and `x` of `generateMoves`. -/
def indices : List (Fin 8) := [0, 1, 2, 3, 4, 5, 6, 7]

/-- The values taken by the loop variables `dy` and `dx` of `generateMoves`. -/
def offsets : List Int := [-1, 0, 1]

/-- The function `Board::generateMoves`: four nested loops, pushing
`{x, y, nx, ny}` for each in-range neighbour of each non-empty cell. -/
def Board.generateMoves (b : Board) : List Move :=
  indices.flatMap fun y =>
    indices.flatMap fun x =>
      if b.cell y x ≠ '.' then
        offsets.flatMap fun dy =>
          offsets.flatMap fun dx =>
            let ny : Int := (y.val : Int) + dy
            let nx : Int := (x.val : Int) + dx
            if ny ≥ 0 ∧ ny < 8 ∧ nx ≥ 0 ∧ nx < 8 then
              [{ startX := (x.val : Int), startY := (y.val : Int), endX := nx, endY := ny }]
            else []
      else []

/-- All four coordinates of a move lie in `[0, 8)`. -/
def Move.inBounds (m : Move) : Prop :=
  (0 ≤ m.startX ∧ m.startX < 8) ∧ (0 ≤ m.startY ∧ m.startY < 8) ∧
  (0 ≤ m.endX ∧ m.endX < 8) ∧ (0 ≤ m.endY ∧ m.endY < 8)

instance (m : Move) : Decidable m.inBounds := by
  unfold Move.inBounds
  infer_instance

/-! ## `ChessAI` -/

/-- The function `ChessAI::evaluate`: the constant 0. -/
def ChessAI.evaluate (_board : Board) : Int := 0

/-- The four statements shared by the three search loops of the source:
`capturedPiece = board.pieceAt(move.endX, move.endY); board.applyMove(move);`
the recursive call on the mutated board; `board.undoMove(move, capturedPiece)`.
It yields the value of the call and the board left behind. -/
def tryMove (child : Board → Option (Int × Board)) (board : Board) (move : Move) :
    Option (Int × Board) :=
  match board.pieceAt move.endX move.endY with
  | none => none
  | some capturedPiece =>
    match board.applyMove move with
    | none => none
    | some b1 =>
      match child b1 with
      | none => none
      | some (value, b2) =>
        match b2.undoMove move capturedPiece with
        | none => none
        | some b3 => some (value, b3)

/-- The `for` loop of the maximizing branch of `minimax` over the remaining
moves, with the loop-carried `board`, `maxEval` and `alpha`. -/
def maxLoop (child : Board → Int → Int → Option (Int × Board)) (beta : Int) :
    List Move → Board → Int → Int → Option (Int × Board)
  | [], board, maxEval, _ => some (maxEval, board)
  | move :: rest, board, maxEval, alpha =>
    match tryMove (fun b => child b alpha beta) board move with
    | none => none
    | some (eval, board') =>
      if beta ≤ max alpha eval then some (max maxEval eval, board')
      else maxLoop child beta rest board' (max maxEval eval) (max alpha eval)

/-- The `for` loop of the minimizing branch of `minimax` over the remaining
moves, with the loop-carried `board`, `minEval` and `beta`. -/
def minLoop (child : Board → Int → Int → Option (Int × Board)) (alpha : Int) :
    List Move → Board → Int → Int → Option (Int × Board)
  | [], board, minEval, _ => some (minEval, board)
  | move :: rest, board, minEval, beta =>
    match tryMove (fun b => child b alpha beta) board move with
    | none => none
    | some (eval, board') =>
      if min beta eval ≤ alpha then some (min minEval eval, board')
      else minLoop child alpha rest board' (min minEval eval) (min beta eval)

/-- The function `ChessAI::minimax`, over an arbitrary evaluator `ev` called at
depth 0. `depth - 1` overflows (undefined behaviour) when `depth` is `INT_MIN`. -/
def minimaxWith (ev : Board → Int) :
    Nat → Board → Int → Int → Int → Bool → Option (Int × Board)
  | 0, _, _, _, _, _ => none
  | fuel + 1, board, depth, alpha, beta, maximizingPlayer =>
    if depth = 0 then some (ev board, board)
    else if maximizingPlayer then
      maxLoop (fun b a be =>
          if INT_MIN < depth then minimaxWith ev fuel b (depth - 1) a be false else none)
        beta board.generateMoves board INT_MIN alpha
    else
      minLoop (fun b a be =>
          if INT_MIN < depth then minimaxWith ev fuel b (depth - 1) a be true else none)
        alpha board.generateMoves board INT_MAX beta

/-- The `for` loop of `findBestMove` over the remaining moves, with the
loop-carried `board`, `bestMove` (`none` while it is uninitialised) and
`bestValue`. -/
def rootLoop (child : Board → Option (Int × Board)) :
    List Move → Board → Option Move → Int → Option (Option Move × Board)
  | [], board, bestMove, _ => some (bestMove, board)
  | move :: rest, board, bestMove, bestValue =>
    match tryMove child board move with
    | none => none
    | some (moveValue, board') =>
      if moveValue > bestValue then rootLoop child rest board' (some move) moveValue
      else rootLoop child rest board' bestMove bestValue

/-- The function `ChessAI::findBestMove` over an arbitrary evaluator; `fuel`
bounds the nested `minimax` frames. The move returned is `none` when the source
returns the uninitialised `bestMove`. -/
def findBestMoveWith (ev : Board → Int) (fuel : Nat) (board : Board) (depth : Int) :
    Option (Option Move × Board) :=
  rootLoop (fun b =>
      if INT_MIN < depth then minimaxWith ev fuel b (depth - 1) INT_MIN INT_MAX false else none)
    board.generateMoves board none INT_MIN

/-- The function `ChessAI::minimax` with the evaluator of the source. -/
def ChessAI.minimax (fuel : Nat) (board : Board) (depth alpha beta : Int)
    (maximizingPlayer : Bool) : Option (Int × Board) :=
  minimaxWith ChessAI.evaluate fuel board depth alpha beta maximizingPlayer

/-- The function `ChessAI::findBestMove` with the evaluator of the source. -/
def ChessAI.findBestMove (fuel : Nat) (board : Board) (depth : Int) :
    Option (Option Move × Board) :=
  findBestMoveWith ChessAI.evaluate fuel board depth

/-! ## Driver: move text -/

/-- A `char` of the source: one byte. -/
abbrev Byte := Fin 256

/-- The bytes of a text as the terminal delivers it to `std::cin`: the UTF-8
encoding of its characters. -/
def stdString (s : String) : List Byte :=
  s.toList.flatMap fun c => (String.utf8EncodeChar c).map fun u => Fin.ofNat u.toNat

/-- The promotion of a `char` to `int`. Whether plain `char` is signed is left to
the implementation (it is on x86-64), so it is a parameter: a signed `char`
with its high bit set is negative. -/
def charToInt (signedChar : Bool) (c : Byte) : Int :=
  if signedChar = true ∧ 128 ≤ c.val then (c.val : Int) - 256 else (c.val : Int)

/-- The access `moveStr[i]` on a `const std::string&`: the character at `i`
below the size, the null character at `i` equal to the size, undefined beyond. -/
def charAt (moveStr : List Byte) (i : Nat) : Option Byte :=
  match moveStr.get? i with
  | some c => some c
  | none => if i = moveStr.length then some 0 else none

/-- The function `parseMove`: unchecked arithmetic on the first four characters,
each promoted to `int`. -/
def parseMove (signedChar : Bool) (moveStr : List Byte) : Option Move :=
  match charAt moveStr 0, charAt moveStr 1, charAt moveStr 2, charAt moveStr 3 with
  | some c0, some c1, some c2, some c3 =>
    some { startX := charToInt signedChar c0 - ('a'.toNat : Int),
           startY := 8 - (charToInt signedChar c1 - ('0'.toNat : Int)),
           endX := charToInt signedChar c2 - ('a'.toNat : Int),
           endY := 8 - (charToInt signedChar c3 - ('0'.toNat : Int)) }
  | _, _, _, _ => none

/-- The conversion `static_cast<char>(v)` of an `int` to a `char`: the low byte. -/
def castChar (v : Int) : Byte :=
  Fin.ofNat (v % 256).toNat

/-- The text printed after `"AI move: "` in `main`: a character, an `int` in
decimal, a character, an `int` in decimal. -/
def formatMove (bestMove : Move) : List Byte :=
  [castChar (bestMove.startX + ('a'.toNat : Int))] ++
    stdString (toString (8 - bestMove.startY)) ++
    [castChar (bestMove.endX + ('a'.toNat : Int))] ++
    stdString (toString (8 - bestMove.endY))

/-- The human branch of the loop in `main` on the token read into `moveStr`:
the parsed move is applied when `isValidMove` accepts it, otherwise
`"Invalid move!"` is printed and the board is left alone. The flag tells
whether a move was applied. -/
def humanTurn (signedChar : Bool) (board : Board) (moveStr : List Byte) :
    Option (Board × Bool) :=
  match parseMove signedChar moveStr with
  | none => none
  | some move =>
    if board.isValidMove move then
      match board.applyMove move with
      | none => none
      | some b1 => some (b1, true)
    else some (board, false)

/-- A file letter of the move text format, `a` to `h`. -/
def isFileChar (c : Byte) : Prop := 'a'.toNat ≤ c.val ∧ c.val ≤ 'h'.toNat

/-- A rank digit of the move text format, `1` to `8`. -/
def isRankChar (c : Byte) : Prop := '1'.toNat ≤ c.val ∧ c.val ≤ '8'.toNat

instance (c : Byte) : Decidable (isFileChar c) := by
  unfold isFileChar
  infer_instance

instance (c : Byte) : Decidable (isRankChar c) := by
  unfold isRankChar
  infer_instance

/-- The moves of `generateMoves` that start on the square `(x, y)`. -/
def Board.movesFrom (b : Board) (x y : Int) : List Move :=
  b.generateMoves.filter fun m => decide (m.startX = x ∧ m.startY = y)

/-- The Chebyshev distance between the two squares of a move. -/
def Move.chebyshev (m : Move) : Nat :=
  max (m.endX - m.startX).natAbs (m.endY - m.startY).natAbs

/-! ## Reference notions for the search -/

/-- The board after `applyMove`; the board itself where the source is undefined. -/
def Board.moved (b : Board) (m : Move) : Board :=
  (b.applyMove m).getD b

/-- The number of cells that are not `'.'`. -/
def Board.occupied (b : Board) : Nat :=
  (Finset.univ.filter fun p : Fin 8 × Fin 8 => b.cell p.1 p.2 ≠ '.').card

/-- The maximizing loop of `minimax` with the statement `if (beta <= alpha) break;`
removed; `alpha` is then never read and is left out. -/
def maxLoopAll (child : Board → Option (Int × Board)) :
    List Move → Board → Int → Option (Int × Board)
  | [], board, maxEval => some (maxEval, board)
  | move :: rest, board, maxEval =>
    match tryMove child board move with
    | none => none
    | some (eval, board') => maxLoopAll child rest board' (max maxEval eval)

/-- The minimizing loop of `minimax` with the statement `if (beta <= alpha) break;`
removed; `beta` is then never read and is left out. -/
def minLoopAll (child : Board → Option (Int × Board)) :
    List Move → Board → Int → Option (Int × Board)
  | [], board, minEval => some (minEval, board)
  | move :: rest, board, minEval =>
    match tryMove child board move with
    | none => none
    | some (eval, board') => minLoopAll child rest board' (min minEval eval)

/-- The recursion of `minimax` with the cutoff removed from both loops: plain
minimax over the same moves, with the same apply and undo on the shared board. -/
def unprunedMinimax (ev : Board → Int) : Nat → Board → Int → Bool → Option (Int × Board)
  | 0, _, _, _ => none
  | fuel + 1, board, depth, maximizingPlayer =>
    if depth = 0 then some (ev board, board)
    else if maximizingPlayer then
      maxLoopAll (fun b =>
          if INT_MIN < depth then unprunedMinimax ev fuel b (depth - 1) false else none)
        board.generateMoves board INT_MIN
    else
      minLoopAll (fun b =>
          if INT_MIN < depth then unprunedMinimax ev fuel b (depth - 1) true else none)
        board.generateMoves board INT_MAX

/-- The minimax value of the move tree of height `depth` below a board, as a
pure function of the board. -/
def treeValue (ev : Board → Int) : Nat → Board → Bool → Int
  | 0, b, _ => ev b
  | depth + 1, b, true =>
    (b.generateMoves.map fun m => treeValue ev depth (b.moved m) false).foldl max INT_MIN
  | depth + 1, b, false =>
    (b.generateMoves.map fun m => treeValue ev depth (b.moved m) true).foldl min INT_MAX

/-- The branch value of a root candidate: the value `findBestMove` obtains from
`minimax(board, depth - 1, INT_MIN, INT_MAX, false)` once the candidate is applied. -/
def branchValue (ev : Board → Int) (fuel : Nat) (board : Board) (depth : Int) (m : Move) :
    Option Int :=
  match board.applyMove m with
  | none => none
  | some b1 => (minimaxWith ev fuel b1 (depth - 1) INT_MIN INT_MAX false).map Prod.fst

/-- The board whose 64 cells are all `'.'`. -/
def Board.empty : Board :=
  ⟨Mathlib.Vector.replicate 8 (Mathlib.Vector.replicate 8 '.')⟩

/-- What a search result `r` obtained inside the window `(alpha, beta)` tells about
the minimax value `v`: an upper bound at or below `alpha`, the exact value
strictly inside the window, a lower bound at or above `beta`. -/
def WindowExact (alpha beta v r : Int) : Prop :=
  (r ≤ alpha → v ≤ r) ∧ (alpha < r → r < beta → v = r) ∧ (beta ≤ r → r ≤ v)

/-- The state of the loop of `findBestMove` after the candidates `done`, each
candidate `m` having had the value `val m`: either nothing beat `INT_MIN` and
`bestMove` is still uninitialised, or `bestMove` is the first candidate of
greatest value. -/
def BestSoFar (val : Move → Int) (done : List Move) (bestMove : Option Move)
    (bestValue : Int) : Prop :=
  (bestMove = none ∧ bestValue = INT_MIN ∧ ∀ m ∈ done, val m ≤ INT_MIN) ∨
  (∃ pre m post, done = pre ++ m :: post ∧ bestMove = some m ∧ bestValue = val m ∧
    (∀ m' ∈ pre, val m' < val m) ∧ (∀ m' ∈ post, val m' ≤ val m))

/-- A sample evaluator that is not constant: the number of occupied cells. -/
def countPieces (b : Board) : Int :=
  (b.occupied : Int)

/-! ## Reference notions for the board and the generator -/

/-- The constant `PIECES` of the source. -/
def PIECES : List Char := "KQRBNPkqrbnp".toList

/-- The lexicographic order of moves by `(startY, startX, endY, endX)`. -/
def Move.lexLt (a b : Move) : Prop :=
  a.startY < b.startY ∨ (a.startY = b.startY ∧
    (a.startX < b.startX ∨ (a.startX = b.startX ∧
      (a.endY < b.endY ∨ (a.endY = b.endY ∧ a.endX < b.endX)))))

instance (a b : Move) : Decidable (a.lexLt b) := by
  unfold Move.lexLt
  infer_instance

/-! # Properties -/

/-! ## Cells and indices -/

theorem Board.cell_set (b : Board) (i j i' j' : Fin 8) (c : Char) :
    (b.set i j c).cell i' j' = if i' = i ∧ j' = j then c else b.cell i' j' := by
  unfold Board.set Board.cell
  simp only [Mathlib.Vector.get_set_eq_if]
  by_cases hi : i = i'
  · subst hi
    by_cases hj : j = j'
    · subst hj; simp
    · have hj' : ¬ j' = j := fun h => hj h.symm
      simp [hj', Mathlib.Vector.get_set_of_ne hj]
  · have hi' : ¬ i' = i := fun h => hi h.symm
    simp [hi, hi']

theorem Board.ext_cells {a b : Board} (h : ∀ i j, a.cell i j = b.cell i j) : a = b := by
  cases a with | mk va => cases b with | mk vb =>
  congr
  apply Mathlib.Vector.ext
  intro i
  apply Mathlib.Vector.ext
  intro j
  exact h i j

theorem toIndex_cast (i : Fin 8) : toIndex (i.val : Int) = some i := by
  unfold toIndex
  have h : (0 : Int) ≤ (i.val : Int) ∧ (i.val : Int) < 8 := by omega
  rw [dif_pos h]
  simp

theorem exists_index_of_bounds {v : Int} (h : 0 ≤ v ∧ v < 8) : ∃ i : Fin 8, v = (i.val : Int) :=
  ⟨⟨v.toNat, by omega⟩, by simp; omega⟩

/-! ## Apply and undo -/

/-- The move whose four coordinates are the given array indices. -/
theorem Move.inBounds_iff_indices (m : Move) :
    m.inBounds ↔ ∃ sx sy ex ey : Fin 8,
      m = ⟨(sx.val : Int), (sy.val : Int), (ex.val : Int), (ey.val : Int)⟩ := by
  constructor
  · rintro ⟨h1, h2, h3, h4⟩
    obtain ⟨sx, hsx⟩ := exists_index_of_bounds h1
    obtain ⟨sy, hsy⟩ := exists_index_of_bounds h2
    obtain ⟨ex, hex⟩ := exists_index_of_bounds h3
    obtain ⟨ey, hey⟩ := exists_index_of_bounds h4
    refine ⟨sx, sy, ex, ey, ?_⟩
    cases m
    simp only [Move.mk.injEq]
    exact ⟨hsx, hsy, hex, hey⟩
  · rintro ⟨sx, sy, ex, ey, rfl⟩
    unfold Move.inBounds
    simp only
    omega

theorem Board.read_cast (b : Board) (i j : Fin 8) :
    b.read (i.val : Int) (j.val : Int) = some (b.cell i j) := by
  unfold Board.read
  rw [toIndex_cast, toIndex_cast]

theorem Board.write_cast (b : Board) (i j : Fin 8) (c : Char) :
    b.write (i.val : Int) (j.val : Int) c = some (b.set i j c) := by
  unfold Board.write
  rw [toIndex_cast, toIndex_cast]

theorem Board.pieceAt_cast (b : Board) (i j : Fin 8) :
    b.pieceAt (j.val : Int) (i.val : Int) = some (b.cell i j) := by
  unfold Board.pieceAt
  exact b.read_cast i j

theorem Board.applyMove_cast (b : Board) (sx sy ex ey : Fin 8) :
    b.applyMove ⟨(sx.val : Int), (sy.val : Int), (ex.val : Int), (ey.val : Int)⟩ =
      some ((b.set ey ex (b.cell sy sx)).set sy sx '.') := by
  unfold Board.applyMove
  simp only [Board.read_cast, Board.write_cast]

theorem Board.undoMove_cast (b : Board) (sx sy ex ey : Fin 8) (c : Char) :
    b.undoMove ⟨(sx.val : Int), (sy.val : Int), (ex.val : Int), (ey.val : Int)⟩ c =
      some ((b.set sy sx (b.cell ey ex)).set ey ex c) := by
  unfold Board.undoMove
  simp only [Board.read_cast, Board.write_cast]

/-- Undoing the stores of `applyMove` with the captured cell gives back every cell. -/
theorem Board.set_roundtrip (b : Board) (sx sy ex ey : Fin 8) :
    (((b.set ey ex (b.cell sy sx)).set sy sx '.').set sy sx
        (((b.set ey ex (b.cell sy sx)).set sy sx '.').cell ey ex)).set ey ex (b.cell ey ex) = b := by
  apply Board.ext_cells
  intro i j
  simp only [Board.cell_set]
  by_cases h1 : i = ey ∧ j = ex
  · obtain ⟨rfl, rfl⟩ := h1
    simp
  · by_cases h2 : i = sy ∧ j = sx
    · obtain ⟨rfl, rfl⟩ := h2
      by_cases h3 : ey = i ∧ ex = j
      · obtain ⟨rfl, rfl⟩ := h3
        simp at h1
      · simp [h1, h3]
    · simp [h1, h2]

/-- The board after `applyMove`, left unchanged where the source is undefined. -/
theorem Board.apply_undo (b : Board) (m : Move) (hm : m.inBounds) :
    ∃ captured b1, b.pieceAt m.endX m.endY = some captured ∧ b.applyMove m = some b1 ∧
      b1.undoMove m captured = some b := by
  obtain ⟨sx, sy, ex, ey, rfl⟩ := (Move.inBounds_iff_indices m).mp hm
  refine ⟨b.cell ey ex, (b.set ey ex (b.cell sy sx)).set sy sx '.', ?_, ?_, ?_⟩
  · exact b.pieceAt_cast ey ex
  · exact b.applyMove_cast sx sy ex ey
  · rw [Board.undoMove_cast, Board.set_roundtrip]

/-- C1: for every board and every move with its four coordinates inside the grid
(whether or not the origin is occupied), reading the destination cell, applying
the move and undoing it with the cell read gives back the original board, equal
in each of the 64 cells. -/
theorem applyMove_undoMove_roundtrip (b : Board) (m : Move) (hm : m.inBounds) :
    ∃ captured b1 b2, b.pieceAt m.endX m.endY = some captured ∧ b.applyMove m = some b1 ∧
      b1.undoMove m captured = some b2 ∧ b2 = b ∧ ∀ i j, b2.cell i j = b.cell i j := by
  obtain ⟨captured, b1, h1, h2, h3⟩ := b.apply_undo m hm
  exact ⟨captured, b1, b, h1, h2, h3, rfl, fun _ _ => rfl⟩

/-- A witness of C1: the capture of the pawn on e7 by the pawn on e2, on the
starting board. -/
theorem applyMove_undoMove_roundtrip_witness :
    Move.inBounds ⟨4, 6, 4, 1⟩ ∧
      ∃ captured b1 b2, Board.start.pieceAt 4 1 = some captured ∧
        Board.start.applyMove ⟨4, 6, 4, 1⟩ = some b1 ∧
        b1.undoMove ⟨4, 6, 4, 1⟩ captured = some b2 ∧ b2 = Board.start ∧
        ∀ i j, b2.cell i j = Board.start.cell i j :=
  ⟨by decide, applyMove_undoMove_roundtrip Board.start ⟨4, 6, 4, 1⟩ (by decide)⟩

/-! ## The legality gate -/

theorem Board.isValidMove_eq_true_iff (b : Board) (m : Move) :
    b.isValidMove m = true ↔
      m.inBounds ∧ ∃ c, b.read m.startY m.startX = some c ∧ c ≠ '.' := by
  by_cases hm : m.inBounds
  · obtain ⟨sx, sy, ex, ey, rfl⟩ := (Move.inBounds_iff_indices m).mp hm
    have h1 : (0 : Int) ≤ (sx.val : Int) ∧ (sx.val : Int) < 8 := by omega
    have h2 : (0 : Int) ≤ (sy.val : Int) ∧ (sy.val : Int) < 8 := by omega
    have h3 : (0 : Int) ≤ (ex.val : Int) ∧ (ex.val : Int) < 8 := by omega
    have h4 : (0 : Int) ≤ (ey.val : Int) ∧ (ey.val : Int) < 8 := by omega
    simp [Board.isValidMove, Board.read_cast, hm, h1, h2, h3, h4]
  · constructor
    · intro h
      exfalso
      apply hm
      simp only [Board.isValidMove, Bool.and_eq_true, decide_eq_true_eq] at h
      obtain ⟨⟨⟨⟨⟨⟨⟨⟨a1, a2⟩, a3⟩, a4⟩, a5⟩, a6⟩, a7⟩, a8⟩, _⟩ := h
      exact ⟨⟨a1, a2⟩, ⟨a3, a4⟩, ⟨a5, a6⟩, ⟨a7, a8⟩⟩
    · intro h
      exact absurd h.1 hm

theorem Board.isValidMove_of_not_inBounds (b : Board) {m : Move} (hm : ¬ m.inBounds) :
    b.isValidMove m = false := by
  cases h : b.isValidMove m
  · rfl
  · exact absurd ((b.isValidMove_eq_true_iff m).mp h).1 hm

/-- C7: `isValidMove` accepts a move exactly when its four coordinates lie in
`[0, 8)` and the origin cell `board[startY][startX]` is not `'.'`; a coordinate
equal to -1 or 8 is rejected; and two boards that agree on whether the origin
cell is `'.'` give the same answer, whatever letters they hold there or on the
destination. -/
theorem isValidMove_iff_inBounds_and_occupied (b : Board) (m : Move) :
    (b.isValidMove m = true ↔
      ((0 ≤ m.startX ∧ m.startX < 8) ∧ (0 ≤ m.startY ∧ m.startY < 8) ∧
        (0 ≤ m.endX ∧ m.endX < 8) ∧ (0 ≤ m.endY ∧ m.endY < 8)) ∧
      ∃ c, b.read m.startY m.startX = some c ∧ c ≠ '.') ∧
    ((m.startX = -1 ∨ m.startX = 8 ∨ m.startY = -1 ∨ m.startY = 8 ∨
        m.endX = -1 ∨ m.endX = 8 ∨ m.endY = -1 ∨ m.endY = 8) →
      b.isValidMove m = false) ∧
    (∀ b' : Board,
      (b'.read m.startY m.startX = some '.' ↔ b.read m.startY m.startX = some '.') →
      b'.isValidMove m = b.isValidMove m) := by
  refine ⟨b.isValidMove_eq_true_iff m, ?_, ?_⟩
  · intro h
    apply b.isValidMove_of_not_inBounds
    unfold Move.inBounds
    omega
  · intro b' hocc
    by_cases hm : m.inBounds
    · have key : ∀ a : Board, a.isValidMove m = true ↔ ¬ a.read m.startY m.startX = some '.' := by
        intro a
        rw [a.isValidMove_eq_true_iff m]
        obtain ⟨sx, sy, ex, ey, rfl⟩ := (Move.inBounds_iff_indices m).mp hm
        simp [Board.read_cast, hm]
      have h1 := key b
      have h2 := key b'
      rw [hocc] at h2
      cases hb : b.isValidMove m <;> cases hb' : b'.isValidMove m <;> simp_all
    · rw [b.isValidMove_of_not_inBounds hm, b'.isValidMove_of_not_inBounds hm]

/-- A witness of C7's rejection clause: a move off the left edge, on the starting
board. -/
theorem isValidMove_iff_inBounds_and_occupied_witness :
    Board.start.isValidMove ⟨-1, 6, 4, 4⟩ = false :=
  (isValidMove_iff_inBounds_and_occupied Board.start ⟨-1, 6, 4, 4⟩).2.1 (Or.inl rfl)

/-! ## Move text -/

theorem isFileChar_iff (c : Byte) : isFileChar c ↔ 97 ≤ c.val ∧ c.val ≤ 104 :=
  Iff.rfl

theorem isRankChar_iff (c : Byte) : isRankChar c ↔ 49 ≤ c.val ∧ c.val ≤ 56 :=
  Iff.rfl

/-- A character below 128 is promoted to its code, signed `char` or not. -/
theorem charToInt_of_lt (signedChar : Bool) (c : Byte) (h : c.val < 128) :
    charToInt signedChar c = (c.val : Int) := by
  unfold charToInt
  rw [if_neg (by omega)]

/-- The promoted value is the code, or the code less 256 for a signed high byte. -/
theorem charToInt_cases (signedChar : Bool) (c : Byte) :
    (c.val < 128 ∧ charToInt signedChar c = (c.val : Int)) ∨
      (128 ≤ c.val ∧ (charToInt signedChar c = (c.val : Int) ∨
        charToInt signedChar c = (c.val : Int) - 256)) := by
  unfold charToInt
  by_cases h : c.val < 128
  · left
    exact ⟨h, by rw [if_neg (by omega)]⟩
  · right
    refine ⟨by omega, ?_⟩
    split
    · right; rfl
    · left; rfl

theorem charToInt_file_iff (signedChar : Bool) (c : Byte) :
    (0 ≤ charToInt signedChar c - 97 ∧ charToInt signedChar c - 97 < 8) ↔ isFileChar c := by
  have hc := c.isLt
  rw [isFileChar_iff]
  rcases charToInt_cases signedChar c with ⟨h, e⟩ | ⟨h, e | e⟩ <;> rw [e] <;> omega

theorem charToInt_rank_iff (signedChar : Bool) (c : Byte) :
    (0 ≤ 8 - (charToInt signedChar c - 48) ∧ 8 - (charToInt signedChar c - 48) < 8) ↔
      isRankChar c := by
  have hc := c.isLt
  rw [isRankChar_iff]
  rcases charToInt_cases signedChar c with ⟨h, e⟩ | ⟨h, e | e⟩ <;> rw [e] <;> omega

/-- The parser reads the first four characters and nothing else. -/
theorem parseMove_cons4 (signedChar : Bool) (c0 c1 c2 c3 : Byte) (rest : List Byte) :
    parseMove signedChar (c0 :: c1 :: c2 :: c3 :: rest) =
      some (Move.mk (charToInt signedChar c0 - 97) (8 - (charToInt signedChar c1 - 48))
        (charToInt signedChar c2 - 97) (8 - (charToInt signedChar c3 - 48))) := by
  simp [parseMove, charAt]

/-- On a text of three characters the fourth read is the terminating null
character. -/
theorem parseMove_three (signedChar : Bool) (c0 c1 c2 : Byte) :
    parseMove signedChar [c0, c1, c2] =
      some (Move.mk (charToInt signedChar c0 - 97) (8 - (charToInt signedChar c1 - 48))
        (charToInt signedChar c2 - 97) (8 - (charToInt signedChar 0 - 48))) := by
  simp [parseMove, charAt]

theorem parsed_inBounds_iff (signedChar : Bool) (c0 c1 c2 c3 : Byte) :
    (Move.mk (charToInt signedChar c0 - 97) (8 - (charToInt signedChar c1 - 48))
        (charToInt signedChar c2 - 97) (8 - (charToInt signedChar c3 - 48))).inBounds ↔
      isFileChar c0 ∧ isRankChar c1 ∧ isFileChar c2 ∧ isRankChar c3 := by
  unfold Move.inBounds
  simp only
  rw [charToInt_file_iff, charToInt_rank_iff, charToInt_file_iff, charToInt_rank_iff]

theorem castChar_file (signedChar : Bool) {c : Byte} (h : isFileChar c) :
    castChar (charToInt signedChar c - 97 + ('a'.toNat : Int)) = c := by
  have h' := (isFileChar_iff c).mp h
  rw [charToInt_of_lt signedChar c (by omega)]
  have e : (('a'.toNat : Nat) : Int) = 97 := by decide
  rw [e]
  apply Fin.ext
  simp only [castChar, Fin.ofNat, Nat.succ_eq_add_one]
  omega

theorem isRankChar_cases {c : Byte} (h : isRankChar c) :
    c = 49 ∨ c = 50 ∨ c = 51 ∨ c = 52 ∨ c = 53 ∨ c = 54 ∨ c = 55 ∨ c = 56 := by
  have h' := (isRankChar_iff c).mp h
  have hv : c.val = 49 ∨ c.val = 50 ∨ c.val = 51 ∨ c.val = 52 ∨ c.val = 53 ∨ c.val = 54 ∨
      c.val = 55 ∨ c.val = 56 := by omega
  rcases hv with e | e | e | e | e | e | e | e
  · exact Or.inl (Fin.ext e)
  · exact Or.inr (Or.inl (Fin.ext e))
  · exact Or.inr (Or.inr (Or.inl (Fin.ext e)))
  · exact Or.inr (Or.inr (Or.inr (Or.inl (Fin.ext e))))
  · exact Or.inr (Or.inr (Or.inr (Or.inr (Or.inl (Fin.ext e)))))
  · exact Or.inr (Or.inr (Or.inr (Or.inr (Or.inr (Or.inl (Fin.ext e))))))
  · exact Or.inr (Or.inr (Or.inr (Or.inr (Or.inr (Or.inr (Or.inl (Fin.ext e)))))))
  · exact Or.inr (Or.inr (Or.inr (Or.inr (Or.inr (Or.inr (Or.inr (Fin.ext e)))))))

theorem decimal_rank (signedChar : Bool) {c : Byte} (h : isRankChar c) :
    stdString (toString (8 - (8 - (charToInt signedChar c - 48)))) = [c] := by
  have h' := (isRankChar_iff c).mp h
  rw [charToInt_of_lt signedChar c (by omega)]
  rcases isRankChar_cases h with rfl | rfl | rfl | rfl | rfl | rfl | rfl | rfl <;> decide

/-- The byte read at position `i` of a text, the terminating null character
included. -/
theorem charAt_eq_getD (moveStr : List Byte) (i : Nat) (h : i ≤ moveStr.length) :
    charAt moveStr i = some (moveStr.getD i 0) := by
  unfold charAt
  by_cases hi : i < moveStr.length
  · rw [List.get?_eq_get hi]
    simp [List.getD_eq_getElem?_getD, hi]
  · have he : i = moveStr.length := by omega
    rw [List.get?_eq_none.mpr (by omega)]
    simp [he]


/-- C8: a four-character text `f1 r1 f2 r2` with files in `a`..`h` and ranks in
`1`..`8` parses to `(f1 - 'a', 8 - (r1 - '0'), f2 - 'a', 8 - (r2 - '0'))`, and
printing that move the way `main` prints the AI move gives the text back; the
text `"e2e4"` parses to `(4, 6, 4, 4)`, which prints as `"e2e4"`. -/
theorem parseMove_formatMove_roundtrip (signedChar : Bool) (f1 r1 f2 r2 : Byte)
    (hf1 : isFileChar f1) (hr1 : isRankChar r1) (hf2 : isFileChar f2) (hr2 : isRankChar r2) :
    parseMove signedChar [f1, r1, f2, r2] =
        some { startX := (f1.val : Int) - 97, startY := 8 - ((r1.val : Int) - 48),
               endX := (f2.val : Int) - 97, endY := 8 - ((r2.val : Int) - 48) } ∧
      formatMove { startX := (f1.val : Int) - 97, startY := 8 - ((r1.val : Int) - 48),
                   endX := (f2.val : Int) - 97, endY := 8 - ((r2.val : Int) - 48) } =
        [f1, r1, f2, r2] ∧
      parseMove signedChar (stdString "e2e4") =
        some { startX := 4, startY := 6, endX := 4, endY := 4 } ∧
      formatMove { startX := 4, startY := 6, endX := 4, endY := 4 } = stdString "e2e4" := by
  have e1 := charToInt_of_lt signedChar f1 (by have := (isFileChar_iff f1).mp hf1; omega)
  have e2 := charToInt_of_lt signedChar r1 (by have := (isRankChar_iff r1).mp hr1; omega)
  have e3 := charToInt_of_lt signedChar f2 (by have := (isFileChar_iff f2).mp hf2; omega)
  have e4 := charToInt_of_lt signedChar r2 (by have := (isRankChar_iff r2).mp hr2; omega)
  refine ⟨?_, ?_, ?_, by decide⟩
  · rw [parseMove_cons4, e1, e2, e3, e4]
  · have c1 := castChar_file signedChar hf1
    have c2 := decimal_rank signedChar hr1
    have c3 := castChar_file signedChar hf2
    have c4 := decimal_rank signedChar hr2
    rw [e1] at c1
    rw [e2] at c2
    rw [e3] at c3
    rw [e4] at c4
    unfold formatMove
    simp only []
    rw [c1, c2, c3, c4]
    rfl
  · cases signedChar <;> decide

/-- A witness of C8 on the text `"a8h1"`. -/
theorem parseMove_formatMove_roundtrip_witness :
    (isFileChar 97 ∧ isRankChar 56 ∧ isFileChar 104 ∧ isRankChar 49) ∧
      stdString "a8h1" = [97, 56, 104, 49] ∧
      parseMove true [97, 56, 104, 49] =
        some { startX := 0, startY := 0, endX := 7, endY := 7 } ∧
      formatMove { startX := 0, startY := 0, endX := 7, endY := 7 } = [97, 56, 104, 49] :=
  ⟨by decide, by decide,
   (parseMove_formatMove_roundtrip true 97 56 104 49 (by decide) (by decide) (by decide)
      (by decide)).1,
   (parseMove_formatMove_roundtrip true 97 56 104 49 (by decide) (by decide) (by decide)
      (by decide)).2.1⟩

/-- A counterexample to C9: no text is rejected before a move is built, and a text
of the wrong length can be applied. The four-character text `"e9e4"`, with a
character that is not a rank, is parsed to the move `(4, -1, 4, 4)`; the
five-character text `"e2e4x"` is parsed to `(4, 6, 4, 4)`, and on the starting
board the driver applies that move. -/
theorem parseMove_accepts_long_text :
    parseMove true (stdString "e9e4") =
        some { startX := 4, startY := -1, endX := 4, endY := 4 } ∧
      (stdString "e2e4x").length ≠ 4 ∧
      parseMove true (stdString "e2e4x") =
        some { startX := 4, startY := 6, endX := 4, endY := 4 } ∧
      (humanTurn true Board.start (stdString "e2e4x")).map Prod.snd = some true ∧
      (humanTurn true Board.start (stdString "e2e4x")).map Prod.fst ≠ some Board.start := by
  decide!

theorem humanTurn_of_not_inBounds (signedChar : Bool) (moveStr : List Byte) (m : Move)
    (hp : parseMove signedChar moveStr = some m) (hm : ¬ m.inBounds) (b : Board) :
    b.isValidMove m = false ∧ humanTurn signedChar b moveStr = some (b, false) := by
  have hv := b.isValidMove_of_not_inBounds hm
  refine ⟨hv, ?_⟩
  unfold humanTurn
  rw [hp]
  simp only [hv]
  rfl

/-- On a text shorter than three characters the read `moveStr[3]` is past the
terminating null character. -/
theorem parseMove_short (signedChar : Bool) (moveStr : List Byte) (h : moveStr.length < 3) :
    parseMove signedChar moveStr = none := by
  match moveStr, h with
  | [], _ => simp [parseMove, charAt]
  | [_], _ => simp [parseMove, charAt]
  | [_, _], _ => simp [parseMove, charAt]

/-- C9, amended: the parser has no failure for malformed text; it builds a move by
unchecked arithmetic from the four reads `moveStr[0]` to `moveStr[3]`, the
fourth of which is the terminating null character on a text of three
characters. For every text of three or more characters that has exactly three
characters or has, among its first four characters, one outside `a`..`h` in a
file position or outside `1`..`8` in a rank position, the move built has a
coordinate outside `[0, 8)`, `isValidMove` rejects it on every board, and the
human branch of the driver leaves the board as it was. On a text shorter than
three characters the fourth read is undefined and nothing is returned. -/
theorem humanTurn_rejects_malformed (signedChar : Bool) (moveStr : List Byte) :
    (3 ≤ moveStr.length →
      (∀ i, i ≤ 3 → charAt moveStr i = some (moveStr.getD i 0)) ∧
      ((moveStr.length = 3 ∨
          ¬ (isFileChar (moveStr.getD 0 0) ∧ isRankChar (moveStr.getD 1 0) ∧
              isFileChar (moveStr.getD 2 0) ∧ isRankChar (moveStr.getD 3 0))) →
        ∃ m, parseMove signedChar moveStr = some m ∧
          ¬ ((0 ≤ m.startX ∧ m.startX < 8) ∧ (0 ≤ m.startY ∧ m.startY < 8) ∧
              (0 ≤ m.endX ∧ m.endX < 8) ∧ (0 ≤ m.endY ∧ m.endY < 8)) ∧
          ∀ b : Board, b.isValidMove m = false ∧
            humanTurn signedChar b moveStr = some (b, false))) ∧
    (moveStr.length < 3 →
      parseMove signedChar moveStr = none ∧
        ∀ b : Board, humanTurn signedChar b moveStr = none) := by
  refine ⟨fun hlen => ⟨fun i hi => charAt_eq_getD moveStr i (by omega), fun hbad => ?_⟩,
    fun hlen => ?_⟩
  · match moveStr, hlen, hbad with
    | [c0, c1, c2], _, _ =>
      have hm : ¬ (Move.mk (charToInt signedChar c0 - 97) (8 - (charToInt signedChar c1 - 48))
          (charToInt signedChar c2 - 97) (8 - (charToInt signedChar 0 - 48))).inBounds := by
        rw [parsed_inBounds_iff]
        intro h
        exact absurd h.2.2.2 (by decide)
      exact ⟨_, parseMove_three signedChar c0 c1 c2, hm,
        humanTurn_of_not_inBounds signedChar _ _ (parseMove_three signedChar c0 c1 c2) hm⟩
    | c0 :: c1 :: c2 :: c3 :: rest, _, hbad =>
      have hm : ¬ (Move.mk (charToInt signedChar c0 - 97) (8 - (charToInt signedChar c1 - 48))
          (charToInt signedChar c2 - 97) (8 - (charToInt signedChar c3 - 48))).inBounds := by
        rw [parsed_inBounds_iff]
        intro h
        rcases hbad with hl | hb
        · simp at hl
        · exact hb h
      exact ⟨_, parseMove_cons4 signedChar c0 c1 c2 c3 rest, hm,
        humanTurn_of_not_inBounds signedChar _ _ (parseMove_cons4 signedChar c0 c1 c2 c3 rest) hm⟩
  · have hp := parseMove_short signedChar moveStr hlen
    refine ⟨hp, fun b => ?_⟩
    unfold humanTurn
    rw [hp]

/-- A witness of the amended C9: the three-character text `"e2e"`, and the text of
the bytes `e9 32 65 34`, whose first byte is negative as a signed `char`. -/
theorem humanTurn_rejects_malformed_witness :
    ((3 ≤ (stdString "e2e").length ∧ (stdString "e2e").length = 3) ∧
      ∃ m, parseMove true (stdString "e2e") = some m ∧
        ¬ ((0 ≤ m.startX ∧ m.startX < 8) ∧ (0 ≤ m.startY ∧ m.startY < 8) ∧
            (0 ≤ m.endX ∧ m.endX < 8) ∧ (0 ≤ m.endY ∧ m.endY < 8)) ∧
        ∀ b : Board, b.isValidMove m = false ∧
          humanTurn true b (stdString "e2e") = some (b, false)) ∧
    ((3 ≤ ([0xe9, 0x32, 0x65, 0x34] : List Byte).length ∧
        ¬ (isFileChar (([0xe9, 0x32, 0x65, 0x34] : List Byte).getD 0 0) ∧
          isRankChar (([0xe9, 0x32, 0x65, 0x34] : List Byte).getD 1 0) ∧
          isFileChar (([0xe9, 0x32, 0x65, 0x34] : List Byte).getD 2 0) ∧
          isRankChar (([0xe9, 0x32, 0x65, 0x34] : List Byte).getD 3 0))) ∧
      ∃ m, parseMove true [0xe9, 0x32, 0x65, 0x34] = some m ∧
        ¬ ((0 ≤ m.startX ∧ m.startX < 8) ∧ (0 ≤ m.startY ∧ m.startY < 8) ∧
            (0 ≤ m.endX ∧ m.endX < 8) ∧ (0 ≤ m.endY ∧ m.endY < 8)) ∧
        ∀ b : Board, b.isValidMove m = false ∧
          humanTurn true b [0xe9, 0x32, 0x65, 0x34] = some (b, false)) ∧
    parseMove true (stdString "e2e") =
      some { startX := 4, startY := 6, endX := 4, endY := 56 } ∧
    parseMove true [0xe9, 0x32, 0x65, 0x34] =
      some { startX := -120, startY := 6, endX := 4, endY := 4 } :=
  ⟨⟨⟨by decide, by decide⟩,
      ((humanTurn_rejects_malformed true (stdString "e2e")).1 (by decide)).2
        (Or.inl (by decide))⟩,
    ⟨⟨by decide, by decide⟩,
      ((humanTurn_rejects_malformed true [0xe9, 0x32, 0x65, 0x34]).1 (by decide)).2
        (Or.inr (by decide))⟩,
    by decide, by decide⟩

/-! ## Generated moves -/

theorem Board.mem_generateMoves (b : Board) (m : Move) :
    m ∈ b.generateMoves ↔
      ∃ y x : Fin 8, b.cell y x ≠ '.' ∧ ∃ dy ∈ offsets, ∃ dx ∈ offsets,
        ((y.val : Int) + dy ≥ 0 ∧ (y.val : Int) + dy < 8 ∧
          (x.val : Int) + dx ≥ 0 ∧ (x.val : Int) + dx < 8) ∧
        m = ⟨(x.val : Int), (y.val : Int), (x.val : Int) + dx, (y.val : Int) + dy⟩ := by
  have hall : ∀ i : Fin 8, i ∈ indices := by decide
  unfold Board.generateMoves
  simp only [List.mem_flatMap]
  constructor
  · rintro ⟨y, -, x, -, h⟩
    by_cases hc : b.cell y x ≠ '.'
    · rw [if_pos hc] at h
      simp only [List.mem_flatMap] at h
      obtain ⟨dy, hdy, dx, hdx, h⟩ := h
      by_cases hb : (y.val : Int) + dy ≥ 0 ∧ (y.val : Int) + dy < 8 ∧
          (x.val : Int) + dx ≥ 0 ∧ (x.val : Int) + dx < 8
      · rw [if_pos hb] at h
        exact ⟨y, x, hc, dy, hdy, dx, hdx, hb, by simpa using h⟩
      · rw [if_neg hb] at h
        simp at h
    · rw [if_neg hc] at h
      simp at h
  · rintro ⟨y, x, hc, dy, hdy, dx, hdx, hb, rfl⟩
    refine ⟨y, hall y, x, hall x, ?_⟩
    rw [if_pos hc]
    simp only [List.mem_flatMap]
    refine ⟨dy, hdy, dx, hdx, ?_⟩
    rw [if_pos hb]
    simp

theorem Board.generateMoves_inBounds (b : Board) {m : Move} (h : m ∈ b.generateMoves) :
    m.inBounds := by
  obtain ⟨y, x, -, dy, -, dx, -, hb, rfl⟩ := (b.mem_generateMoves m).mp h
  unfold Move.inBounds
  simp only
  omega

theorem Board.applyMove_eq_moved (b : Board) {m : Move} (hm : m.inBounds) :
    b.applyMove m = some (b.moved m) := by
  obtain ⟨_, b1, _, h, _⟩ := b.apply_undo m hm
  unfold Board.moved
  rw [h]
  rfl

/-- C6 on the code: on the starting layout `generateMoves` yields 4 moves from the
corner a8, 6 from the edge square b8 and 9 from the interior square b7, because
the offset `(0, 0)` is not skipped: the move from a8 to a8, at Chebyshev
distance 0, is generated. -/
theorem generateMoves_start_includes_origin :
    (Board.start.movesFrom 0 0).length = 4 ∧
      (Board.start.movesFrom 1 0).length = 6 ∧
      (Board.start.movesFrom 1 1).length = 9 ∧
      ({ startX := 0, startY := 0, endX := 0, endY := 0 } : Move) ∈ Board.start.generateMoves ∧
      Move.chebyshev { startX := 0, startY := 0, endX := 0, endY := 0 } = 0 := by
  decide!

/-! ## One hypothetical move -/

/-- When the call on the mutated board returns it as it was, `tryMove` returns the
caller's board as it was. -/
theorem tryMove_eq_some (child : Board → Option (Int × Board)) (b : Board) {m : Move}
    (hm : m.inBounds) {v : Int} (hc : child (b.moved m) = some (v, b.moved m)) :
    tryMove child b m = some (v, b) := by
  obtain ⟨captured, b1, h1, h2, h3⟩ := b.apply_undo m hm
  have hb1 : b1 = b.moved m := by
    have := b.applyMove_eq_moved hm
    rw [h2] at this
    exact Option.some.inj this
  subst hb1
  unfold tryMove
  simp only [h1, h2, hc, h3]

theorem tryMove_eq_none (child : Board → Option (Int × Board)) (b : Board) {m : Move}
    (hm : m.inBounds) (hc : child (b.moved m) = none) :
    tryMove child b m = none := by
  obtain ⟨captured, b1, h1, h2, h3⟩ := b.apply_undo m hm
  have hb1 : b1 = b.moved m := by
    have := b.applyMove_eq_moved hm
    rw [h2] at this
    exact Option.some.inj this
  subst hb1
  unfold tryMove
  simp only [h1, h2, hc]

/-! ## The search returns and restores the board -/

theorem maxLoop_returns (child : Board → Int → Int → Option (Int × Board)) (beta : Int)
    (b : Board) (hchild : ∀ b' a be, ∃ v, child b' a be = some (v, b')) :
    ∀ (l : List Move), (∀ m ∈ l, m.inBounds) → ∀ maxEval alpha,
      ∃ v, maxLoop child beta l b maxEval alpha = some (v, b) := by
  intro l
  induction l with
  | nil => intro _ maxEval _; exact ⟨maxEval, rfl⟩
  | cons m rest ih =>
    intro hl maxEval alpha
    obtain ⟨e, he⟩ := hchild (b.moved m) alpha beta
    have ht := tryMove_eq_some (fun b' => child b' alpha beta) b (hl m (List.mem_cons_self _ _)) he
    unfold maxLoop
    simp only [ht]
    by_cases hcut : beta ≤ max alpha e
    · rw [if_pos hcut]
      exact ⟨_, rfl⟩
    · rw [if_neg hcut]
      exact ih (fun m' hm' => hl m' (List.mem_cons_of_mem _ hm')) _ _

theorem minLoop_returns (child : Board → Int → Int → Option (Int × Board)) (alpha : Int)
    (b : Board) (hchild : ∀ b' a be, ∃ v, child b' a be = some (v, b')) :
    ∀ (l : List Move), (∀ m ∈ l, m.inBounds) → ∀ minEval beta,
      ∃ v, minLoop child alpha l b minEval beta = some (v, b) := by
  intro l
  induction l with
  | nil => intro _ minEval _; exact ⟨minEval, rfl⟩
  | cons m rest ih =>
    intro hl minEval beta
    obtain ⟨e, he⟩ := hchild (b.moved m) alpha beta
    have ht := tryMove_eq_some (fun b' => child b' alpha beta) b (hl m (List.mem_cons_self _ _)) he
    unfold minLoop
    simp only [ht]
    by_cases hcut : min beta e ≤ alpha
    · rw [if_pos hcut]
      exact ⟨_, rfl⟩
    · rw [if_neg hcut]
      exact ih (fun m' hm' => hl m' (List.mem_cons_of_mem _ hm')) _ _

theorem rootLoop_returns (child : Board → Option (Int × Board)) (b : Board)
    (hchild : ∀ b', ∃ v, child b' = some (v, b')) :
    ∀ (l : List Move), (∀ m ∈ l, m.inBounds) → ∀ bestMove bestValue,
      ∃ r, rootLoop child l b bestMove bestValue = some (r, b) := by
  intro l
  induction l with
  | nil => intro _ bestMove _; exact ⟨bestMove, rfl⟩
  | cons m rest ih =>
    intro hl bestMove bestValue
    obtain ⟨e, he⟩ := hchild (b.moved m)
    have ht := tryMove_eq_some child b (hl m (List.mem_cons_self _ _)) he
    unfold rootLoop
    simp only [ht]
    by_cases hgt : e > bestValue
    · rw [if_pos hgt]
      exact ih (fun m' hm' => hl m' (List.mem_cons_of_mem _ hm')) _ _
    · rw [if_neg hgt]
      exact ih (fun m' hm' => hl m' (List.mem_cons_of_mem _ hm')) _ _

theorem INT_MIN_lt_of_nonneg {depth : Int} (h : 0 ≤ depth) : INT_MIN < depth := by
  unfold INT_MIN
  omega

/-- With more fuel than depth, `minimax` returns, and returns the board it was given. -/
theorem minimaxWith_returns (ev : Board → Int) :
    ∀ (fuel : Nat) (b : Board) (depth alpha beta : Int) (mx : Bool),
      0 ≤ depth → depth < fuel → ∃ v, minimaxWith ev fuel b depth alpha beta mx = some (v, b) := by
  intro fuel
  induction fuel with
  | zero => intro b depth _ _ _ h0 hf; exact absurd hf (by simp; omega)
  | succ fuel ih =>
    intro b depth alpha beta mx h0 hf
    unfold minimaxWith
    by_cases hd : depth = 0
    · rw [if_pos hd]
      exact ⟨_, rfl⟩
    · rw [if_neg hd]
      have hlt : INT_MIN < depth := INT_MIN_lt_of_nonneg h0
      have hchild : ∀ side b' a be,
          ∃ v, (if INT_MIN < depth then minimaxWith ev fuel b' (depth - 1) a be side else none)
            = some (v, b') := by
        intro side b' a be
        rw [if_pos hlt]
        exact ih b' (depth - 1) a be side (by omega) (by push_cast at hf; omega)
      cases mx with
      | true =>
        simp only [if_true]
        exact maxLoop_returns _ beta b (hchild false) _ (fun m hm => b.generateMoves_inBounds hm) _ _
      | false =>
        simp only [Bool.false_eq_true, if_false]
        exact minLoop_returns _ alpha b (hchild true) _ (fun m hm => b.generateMoves_inBounds hm) _ _

/-- With at least as much fuel as depth, `findBestMove` at depth 1 or more returns,
and returns the board it was given. -/
theorem findBestMoveWith_returns (ev : Board → Int) (fuel : Nat) (b : Board) (depth : Int)
    (h1 : 1 ≤ depth) (hf : depth ≤ fuel) :
    ∃ r, findBestMoveWith ev fuel b depth = some (r, b) := by
  unfold findBestMoveWith
  apply rootLoop_returns
  · intro b'
    rw [if_pos (INT_MIN_lt_of_nonneg (by omega))]
    exact minimaxWith_returns ev fuel b' (depth - 1) _ _ _ (by omega) (by omega)
  · exact fun m hm => b.generateMoves_inBounds hm

/-- C2: for every evaluator, board, window and side, `minimax` at a depth of 0 or
more (given more frames than the depth) returns and leaves the board it was
given, cutoff or not; and `findBestMove` at a depth of 1 or more returns and
leaves the board it was given. -/
theorem search_restores_board (ev : Board → Int) (fuel : Nat) (b : Board)
    (depth alpha beta : Int) (mx : Bool) :
    (0 ≤ depth → depth < fuel →
      ∃ v b', minimaxWith ev fuel b depth alpha beta mx = some (v, b') ∧ b' = b ∧
        ∀ i j, b'.cell i j = b.cell i j) ∧
    (1 ≤ depth → depth ≤ fuel →
      ∃ r b', findBestMoveWith ev fuel b depth = some (r, b') ∧ b' = b ∧
        ∀ i j, b'.cell i j = b.cell i j) := by
  constructor
  · intro h0 hf
    obtain ⟨v, hv⟩ := minimaxWith_returns ev fuel b depth alpha beta mx h0 hf
    exact ⟨v, b, hv, rfl, fun _ _ => rfl⟩
  · intro h1 hf
    obtain ⟨r, hr⟩ := findBestMoveWith_returns ev fuel b depth h1 hf
    exact ⟨r, b, hr, rfl, fun _ _ => rfl⟩

/-- A witness of C2: the source's search on the starting board at depth 2, inside a
window that is already closed (`beta <= alpha`), so that each loop breaks after
its first move. -/
theorem search_restores_board_witness :
    ((0 : Int) ≤ 2 ∧ (2 : Int) < (3 : Nat) ∧
      ∃ v b', ChessAI.minimax 3 Board.start 2 5 3 true = some (v, b') ∧ b' = Board.start ∧
        ∀ i j, b'.cell i j = Board.start.cell i j) ∧
    ((1 : Int) ≤ 2 ∧ (2 : Int) ≤ (3 : Nat) ∧
      ∃ r b', ChessAI.findBestMove 3 Board.start 2 = some (r, b') ∧ b' = Board.start ∧
        ∀ i j, b'.cell i j = Board.start.cell i j) :=
  ⟨⟨by decide, by decide,
    (search_restores_board ChessAI.evaluate 3 Board.start 2 5 3 true).1 (by decide) (by decide)⟩,
   ⟨by decide, by decide,
    (search_restores_board ChessAI.evaluate 3 Board.start 2 5 3 true).2 (by decide) (by decide)⟩⟩

/-- C10, amended: for every board, window and side, `minimax` at a depth of 0 or
more returns within `depth + 1` nested frames, that is with at most `depth`
recursive calls nested below the first one; `findBestMove` at a depth of 1 or
more returns with at most `depth` nested `minimax` frames. -/
theorem search_returns_within_depth (ev : Board → Int) (b : Board)
    (depth alpha beta : Int) (mx : Bool) :
    (0 ≤ depth → (minimaxWith ev (depth.toNat + 1) b depth alpha beta mx).isSome = true) ∧
    (1 ≤ depth → (findBestMoveWith ev depth.toNat b depth).isSome = true) := by
  constructor
  · intro h0
    obtain ⟨v, hv⟩ := minimaxWith_returns ev (depth.toNat + 1) b depth alpha beta mx h0
      (by push_cast; omega)
    rw [hv]
    rfl
  · intro h1
    obtain ⟨r, hr⟩ := findBestMoveWith_returns ev depth.toNat b depth h1 (by omega)
    rw [hr]
    rfl

/-- A witness of the amended C10: the source's search on the starting board at
depth 3, the depth `main` uses. -/
theorem search_returns_within_depth_witness :
    ((0 : Int) ≤ 3 ∧
      (ChessAI.minimax ((3 : Int).toNat + 1) Board.start 3 INT_MIN INT_MAX true).isSome = true) ∧
    ((1 : Int) ≤ 3 ∧ (ChessAI.findBestMove (3 : Int).toNat Board.start 3).isSome = true) :=
  ⟨⟨by decide,
    (search_returns_within_depth ChessAI.evaluate Board.start 3 INT_MIN INT_MAX true).1
      (by decide)⟩,
   ⟨by decide,
    (search_returns_within_depth ChessAI.evaluate Board.start 3 INT_MIN INT_MAX true).2
      (by decide)⟩⟩

/-! ## Alpha-beta against the plain minimax value -/

theorem le_foldl_max (l : List Int) (init : Int) : init ≤ l.foldl max init := by
  induction l generalizing init with
  | nil => exact le_refl _
  | cons x xs ih =>
    simp only [List.foldl_cons]
    have := ih (max init x)
    omega

theorem foldl_min_le (l : List Int) (init : Int) : l.foldl min init ≤ init := by
  induction l generalizing init with
  | nil => exact le_refl _
  | cons x xs ih =>
    simp only [List.foldl_cons]
    have := ih (min init x)
    omega

theorem foldl_max_le (l : List Int) (init hi : Int) (h0 : init ≤ hi) (h : ∀ x ∈ l, x ≤ hi) :
    l.foldl max init ≤ hi := by
  induction l generalizing init with
  | nil => exact h0
  | cons x xs ih =>
    simp only [List.foldl_cons]
    have hx := h x (List.mem_cons_self _ _)
    exact ih (max init x) (by omega) (fun y hy => h y (List.mem_cons_of_mem _ hy))

theorem le_foldl_min (l : List Int) (init lo : Int) (h0 : lo ≤ init) (h : ∀ x ∈ l, lo ≤ x) :
    lo ≤ l.foldl min init := by
  induction l generalizing init with
  | nil => exact h0
  | cons x xs ih =>
    simp only [List.foldl_cons]
    have hx := h x (List.mem_cons_self _ _)
    exact ih (min init x) (by omega) (fun y hy => h y (List.mem_cons_of_mem _ hy))

/-- The minimax value stays in the range of `int` when the evaluator does. -/
theorem treeValue_range (ev : Board → Int) (hev : ∀ b, INT_MIN ≤ ev b ∧ ev b ≤ INT_MAX) :
    ∀ (depth : Nat) (b : Board) (mx : Bool),
      INT_MIN ≤ treeValue ev depth b mx ∧ treeValue ev depth b mx ≤ INT_MAX := by
  have hmm : INT_MIN ≤ INT_MAX := by decide
  intro depth
  induction depth with
  | zero => intro b mx; exact hev b
  | succ d ih =>
    intro b mx
    cases mx with
    | true =>
      simp only [treeValue]
      refine ⟨le_foldl_max _ _, foldl_max_le _ _ _ hmm ?_⟩
      intro x hx
      obtain ⟨m, -, rfl⟩ := List.mem_map.mp hx
      exact (ih _ _).2
    | false =>
      simp only [treeValue]
      refine ⟨le_foldl_min _ _ _ hmm ?_, foldl_min_le _ _⟩
      intro x hx
      obtain ⟨m, -, rfl⟩ := List.mem_map.mp hx
      exact (ih _ _).1

theorem maxLoop_window (child : Board → Int → Int → Option (Int × Board)) (beta a0 : Int)
    (b : Board) (val : Board → Int)
    (hchild : ∀ b' a, a0 ≤ a → a < beta →
      ∃ r, child b' a beta = some (r, b') ∧ WindowExact a beta (val b') r) :
    ∀ (l : List Move), (∀ m ∈ l, m.inBounds) → ∀ maxEval V alpha,
      (maxEval ≤ a0 → V ≤ maxEval) → (a0 < maxEval → V = maxEval) →
      alpha = max a0 maxEval → alpha < beta →
      ∃ r, maxLoop child beta l b maxEval alpha = some (r, b) ∧
        WindowExact a0 beta ((l.map fun m => val (b.moved m)).foldl max V) r := by
  intro l
  induction l with
  | nil =>
    intro _ maxEval V alpha h1 h2 h3 h4
    refine ⟨maxEval, rfl, h1, fun h _ => h2 h, fun h => ?_⟩
    omega
  | cons m rest ih =>
    intro hl maxEval V alpha h1 h2 h3 h4
    obtain ⟨e, he, hw1, hw2, hw3⟩ := hchild (b.moved m) alpha (by omega) h4
    have ht := tryMove_eq_some (fun b' => child b' alpha beta) b (hl m (List.mem_cons_self _ _)) he
    unfold maxLoop
    simp only [ht, List.map_cons, List.foldl_cons]
    by_cases hcut : beta ≤ max alpha e
    · rw [if_pos hcut]
      have hbe : beta ≤ e := by omega
      have hv := hw3 hbe
      have hfin := le_foldl_max (rest.map fun m => val (b.moved m)) (max V (val (b.moved m)))
      refine ⟨_, rfl, fun h => ?_, fun _ h => ?_, fun _ => ?_⟩ <;> omega
    · rw [if_neg hcut]
      apply ih (fun m' hm' => hl m' (List.mem_cons_of_mem _ hm'))
      · intro h
        have := hw1 (by omega)
        have := h1 (by omega)
        omega
      · intro h
        by_cases hea : e ≤ alpha
        · have := hw1 hea
          have := h2 (by omega)
          omega
        · have := hw2 (by omega) (by omega)
          by_cases hm0 : maxEval ≤ a0
          · have := h1 hm0
            omega
          · have := h2 (by omega)
            omega
      · omega
      · omega

theorem minLoop_window (child : Board → Int → Int → Option (Int × Board)) (alpha b0 : Int)
    (b : Board) (val : Board → Int)
    (hchild : ∀ b' be, be ≤ b0 → alpha < be →
      ∃ r, child b' alpha be = some (r, b') ∧ WindowExact alpha be (val b') r) :
    ∀ (l : List Move), (∀ m ∈ l, m.inBounds) → ∀ minEval V beta,
      (b0 ≤ minEval → minEval ≤ V) → (minEval < b0 → V = minEval) →
      beta = min b0 minEval → alpha < beta →
      ∃ r, minLoop child alpha l b minEval beta = some (r, b) ∧
        WindowExact alpha b0 ((l.map fun m => val (b.moved m)).foldl min V) r := by
  intro l
  induction l with
  | nil =>
    intro _ minEval V beta h1 h2 h3 h4
    refine ⟨minEval, rfl, fun h => ?_, fun _ h => h2 h, h1⟩
    omega
  | cons m rest ih =>
    intro hl minEval V beta h1 h2 h3 h4
    obtain ⟨e, he, hw1, hw2, hw3⟩ := hchild (b.moved m) beta (by omega) h4
    have ht := tryMove_eq_some (fun b' => child b' alpha beta) b (hl m (List.mem_cons_self _ _)) he
    unfold minLoop
    simp only [ht, List.map_cons, List.foldl_cons]
    by_cases hcut : min beta e ≤ alpha
    · rw [if_pos hcut]
      have hbe : e ≤ alpha := by omega
      have hv := hw1 hbe
      have hfin := foldl_min_le (rest.map fun m => val (b.moved m)) (min V (val (b.moved m)))
      refine ⟨_, rfl, fun _ => ?_, fun h _ => ?_, fun h => ?_⟩ <;> omega
    · rw [if_neg hcut]
      apply ih (fun m' hm' => hl m' (List.mem_cons_of_mem _ hm'))
      · intro h
        have := hw3 (by omega)
        have := h1 (by omega)
        omega
      · intro h
        by_cases hea : beta ≤ e
        · have := hw3 hea
          have := h2 (by omega)
          omega
        · have := hw2 (by omega) (by omega)
          by_cases hm0 : b0 ≤ minEval
          · have := h1 hm0
            omega
          · have := h2 (by omega)
            omega
      · omega
      · omega


/-- Inside any window of `int`s, the result of the pruned search brackets the plain
minimax value the way `WindowExact` says, and the board is returned as given. -/
theorem minimaxWith_window (ev : Board → Int) :
    ∀ (fuel : Nat) (b : Board) (depth alpha beta : Int) (mx : Bool),
      0 ≤ depth → depth < fuel → INT_MIN ≤ alpha → alpha < beta → beta ≤ INT_MAX →
      ∃ r, minimaxWith ev fuel b depth alpha beta mx = some (r, b) ∧
        WindowExact alpha beta (treeValue ev depth.toNat b mx) r := by
  intro fuel
  induction fuel with
  | zero => intro b depth _ _ _ h0 hf; exact absurd hf (by simp; omega)
  | succ fuel ih =>
    intro b depth alpha beta mx h0 hf ha hab hb
    unfold minimaxWith
    by_cases hd : depth = 0
    · subst hd
      rw [if_pos rfl]
      refine ⟨_, rfl, ?_⟩
      simp only [Int.toNat_zero, treeValue]
      exact ⟨fun _ => le_refl _, fun _ _ => rfl, fun _ => le_refl _⟩
    · rw [if_neg hd]
      have hlt : INT_MIN < depth := INT_MIN_lt_of_nonneg h0
      obtain ⟨n, hn⟩ : ∃ n : Nat, depth = (n : Int) + 1 := ⟨(depth - 1).toNat, by omega⟩
      have hn1 : depth.toNat = n + 1 := by omega
      have hn2 : depth - 1 = (n : Int) := by omega
      have hfn : (n : Int) < fuel := by push_cast at hf; omega
      simp only [if_pos hlt, hn1, hn2]
      cases mx with
      | true =>
        simp only [if_true, treeValue]
        apply maxLoop_window
          (fun b' a be => minimaxWith ev fuel b' (n : Int) a be false) beta alpha b
          (fun b' => treeValue ev n b' false)
        · intro b' a haa hab'
          have := ih b' (n : Int) a beta false (by omega) hfn (by omega) hab' hb
          simpa using this
        · exact fun m hm => b.generateMoves_inBounds hm
        · intro _; exact le_refl _
        · intro _; rfl
        · omega
        · exact hab
      | false =>
        simp only [Bool.false_eq_true, if_false, treeValue]
        apply minLoop_window
          (fun b' a be => minimaxWith ev fuel b' (n : Int) a be true) alpha beta b
          (fun b' => treeValue ev n b' true)
        · intro b' be hbb hab'
          have := ih b' (n : Int) alpha be true (by omega) hfn ha hab' (by omega)
          simpa using this
        · exact fun m hm => b.generateMoves_inBounds hm
        · intro _; exact le_refl _
        · intro _; rfl
        · omega
        · exact hab

/-! ## The search without the cutoff -/

theorem maxLoopAll_eq (child : Board → Option (Int × Board)) (b : Board) (val : Board → Int)
    (hchild : ∀ b', child b' = some (val b', b')) :
    ∀ (l : List Move), (∀ m ∈ l, m.inBounds) → ∀ maxEval,
      maxLoopAll child l b maxEval =
        some ((l.map fun m => val (b.moved m)).foldl max maxEval, b) := by
  intro l
  induction l with
  | nil => intro _ _; rfl
  | cons m rest ih =>
    intro hl maxEval
    have ht := tryMove_eq_some child b (hl m (List.mem_cons_self _ _)) (hchild (b.moved m))
    unfold maxLoopAll
    simp only [ht, List.map_cons, List.foldl_cons]
    exact ih (fun m' hm' => hl m' (List.mem_cons_of_mem _ hm')) _

theorem minLoopAll_eq (child : Board → Option (Int × Board)) (b : Board) (val : Board → Int)
    (hchild : ∀ b', child b' = some (val b', b')) :
    ∀ (l : List Move), (∀ m ∈ l, m.inBounds) → ∀ minEval,
      minLoopAll child l b minEval =
        some ((l.map fun m => val (b.moved m)).foldl min minEval, b) := by
  intro l
  induction l with
  | nil => intro _ _; rfl
  | cons m rest ih =>
    intro hl minEval
    have ht := tryMove_eq_some child b (hl m (List.mem_cons_self _ _)) (hchild (b.moved m))
    unfold minLoopAll
    simp only [ht, List.map_cons, List.foldl_cons]
    exact ih (fun m' hm' => hl m' (List.mem_cons_of_mem _ hm')) _

/-- The recursion without the cutoff computes the plain minimax value. -/
theorem unprunedMinimax_eq (ev : Board → Int) :
    ∀ (fuel : Nat) (b : Board) (depth : Int) (mx : Bool), 0 ≤ depth → depth < fuel →
      unprunedMinimax ev fuel b depth mx = some (treeValue ev depth.toNat b mx, b) := by
  intro fuel
  induction fuel with
  | zero => intro b depth _ h0 hf; exact absurd hf (by simp; omega)
  | succ fuel ih =>
    intro b depth mx h0 hf
    unfold unprunedMinimax
    by_cases hd : depth = 0
    · subst hd
      rw [if_pos rfl]
      simp only [Int.toNat_zero, treeValue]
    · rw [if_neg hd]
      have hlt : INT_MIN < depth := INT_MIN_lt_of_nonneg h0
      obtain ⟨n, hn⟩ : ∃ n : Nat, depth = (n : Int) + 1 := ⟨(depth - 1).toNat, by omega⟩
      have hn1 : depth.toNat = n + 1 := by omega
      have hn2 : depth - 1 = (n : Int) := by omega
      have hfn : (n : Int) < fuel := by push_cast at hf; omega
      simp only [if_pos hlt, hn1, hn2]
      cases mx with
      | true =>
        simp only [if_true, treeValue]
        apply maxLoopAll_eq (fun b' => unprunedMinimax ev fuel b' (n : Int) false) b
          (fun b' => treeValue ev n b' false)
        · intro b'
          have := ih b' (n : Int) false (by omega) hfn
          simpa using this
        · exact fun m hm => b.generateMoves_inBounds hm
      | false =>
        simp only [Bool.false_eq_true, if_false, treeValue]
        apply minLoopAll_eq (fun b' => unprunedMinimax ev fuel b' (n : Int) true) b
          (fun b' => treeValue ev n b' true)
        · intro b'
          have := ih b' (n : Int) true (by omega) hfn
          simpa using this
        · exact fun m hm => b.generateMoves_inBounds hm

theorem Board.occupied_le (b : Board) : b.occupied ≤ 64 := by
  unfold Board.occupied
  calc (Finset.univ.filter fun p : Fin 8 × Fin 8 => b.cell p.1 p.2 ≠ '.').card
      ≤ (Finset.univ : Finset (Fin 8 × Fin 8)).card := Finset.card_filter_le _ _
    _ = 64 := by simp

theorem countPieces_range (b : Board) : INT_MIN ≤ countPieces b ∧ countPieces b ≤ INT_MAX := by
  have := b.occupied_le
  unfold countPieces INT_MIN INT_MAX
  omega

/-- C3: for every evaluator with values in the range of `int`, every board, every
depth of 0 or more and either side, `minimax` called with the full window
`(INT_MIN, INT_MAX)` returns exactly what the same recursion without the cutoff
returns, which is the plain minimax value of the move tree, on the unchanged
board. -/
theorem minimax_full_window_eq_unpruned (ev : Board → Int)
    (hev : ∀ b, INT_MIN ≤ ev b ∧ ev b ≤ INT_MAX) (fuel : Nat) (b : Board) (depth : Int)
    (mx : Bool) (h0 : 0 ≤ depth) (hf : depth < fuel) :
    minimaxWith ev fuel b depth INT_MIN INT_MAX mx = unprunedMinimax ev fuel b depth mx ∧
      unprunedMinimax ev fuel b depth mx = some (treeValue ev depth.toNat b mx, b) := by
  have hu := unprunedMinimax_eq ev fuel b depth mx h0 hf
  refine ⟨?_, hu⟩
  rw [hu]
  obtain ⟨r, hr, hw1, hw2, hw3⟩ := minimaxWith_window ev fuel b depth INT_MIN INT_MAX mx h0 hf
    (le_refl _) (by decide) (le_refl _)
  obtain ⟨hv1, hv2⟩ := treeValue_range ev hev depth.toNat b mx
  rw [hr]
  have : r = treeValue ev depth.toNat b mx := by
    by_cases h1 : r ≤ INT_MIN
    · have := hw1 h1
      omega
    · by_cases h2 : r < INT_MAX
      · exact (hw2 (by omega) h2).symm
      · have := hw3 (by omega)
        omega
  rw [this]

/-- A witness of C3: the evaluator that counts the occupied cells, on the board with
two kings, at depth 2 with the maximizing side to move. -/
theorem minimax_full_window_eq_unpruned_witness :
    (∀ b, INT_MIN ≤ countPieces b ∧ countPieces b ≤ INT_MAX) ∧ (0 : Int) ≤ 2 ∧
      (2 : Int) < (3 : Nat) ∧
      minimaxWith countPieces 3 ((Board.empty.set 0 0 'k').set 7 7 'K') 2 INT_MIN INT_MAX true =
        unprunedMinimax countPieces 3 ((Board.empty.set 0 0 'k').set 7 7 'K') 2 true ∧
      unprunedMinimax countPieces 3 ((Board.empty.set 0 0 'k').set 7 7 'K') 2 true =
        some (treeValue countPieces (2 : Int).toNat ((Board.empty.set 0 0 'k').set 7 7 'K') true,
          (Board.empty.set 0 0 'k').set 7 7 'K') :=
  ⟨countPieces_range, by decide, by decide,
    minimax_full_window_eq_unpruned countPieces countPieces_range 3
      ((Board.empty.set 0 0 'k').set 7 7 'K') 2 true (by decide) (by decide)⟩

/-! ## The root loop -/

theorem rootLoop_bestSoFar (child : Board → Option (Int × Board)) (b : Board)
    (val : Board → Int) (hchild : ∀ b', child b' = some (val b', b')) :
    ∀ (l : List Move), (∀ m ∈ l, m.inBounds) → ∀ done bestMove bestValue,
      BestSoFar (fun m => val (b.moved m)) done bestMove bestValue →
      ∃ bestMove' bestValue', rootLoop child l b bestMove bestValue = some (bestMove', b) ∧
        BestSoFar (fun m => val (b.moved m)) (done ++ l) bestMove' bestValue' := by
  intro l
  induction l with
  | nil =>
    intro _ done bestMove bestValue hinv
    exact ⟨bestMove, bestValue, rfl, by simpa using hinv⟩
  | cons m rest ih =>
    intro hl done bestMove bestValue hinv
    have ht := tryMove_eq_some child b (hl m (List.mem_cons_self _ _)) (hchild (b.moved m))
    have hrest : ∀ m' ∈ rest, m'.inBounds := fun m' hm' => hl m' (List.mem_cons_of_mem _ hm')
    have happ : done ++ m :: rest = (done ++ [m]) ++ rest := by simp
    unfold rootLoop
    simp only [ht]
    rw [happ]
    by_cases hgt : val (b.moved m) > bestValue
    · rw [if_pos hgt]
      apply ih hrest
      right
      refine ⟨done, m, [], rfl, rfl, rfl, ?_, by simp⟩
      intro m' hm'
      rcases hinv with ⟨-, hbv, hall⟩ | ⟨pre, m0, post, hdone, -, hbv, hpre, hpost⟩
      · have := hall m' hm'
        simp only at this ⊢
        omega
      · subst hdone
        simp only at hpre hpost hbv ⊢
        rcases List.mem_append.mp hm' with h | h
        · have := hpre m' h
          omega
        · rcases List.mem_cons.mp h with h | h
          · subst h
            omega
          · have := hpost m' h
            omega
    · rw [if_neg hgt]
      apply ih hrest
      rcases hinv with ⟨hb, hbv, hall⟩ | ⟨pre, m0, post, hdone, hb, hbv, hpre, hpost⟩
      · left
        refine ⟨hb, hbv, ?_⟩
        intro m' hm'
        rcases List.mem_append.mp hm' with h | h
        · exact hall m' h
        · have : m' = m := by simpa using h
          subst this
          simp only
          omega
      · right
        refine ⟨pre, m0, post ++ [m], by simp [hdone], hb, hbv, hpre, ?_⟩
        intro m' hm'
        rcases List.mem_append.mp hm' with h | h
        · exact hpost m' h
        · have : m' = m := by simpa using h
          subst this
          simp only at hbv ⊢
          omega

/-- The value `findBestMove` gets for a root candidate, as a function of the board
the candidate leads to. -/
theorem branchValue_eq (ev : Board → Int) (fuel : Nat) (b : Board) (depth : Int) {m : Move}
    (hm : m.inBounds) :
    branchValue ev fuel b depth m =
      (minimaxWith ev fuel (b.moved m) (depth - 1) INT_MIN INT_MAX false).map Prod.fst := by
  unfold branchValue
  rw [b.applyMove_eq_moved hm]

/-- C4: at a depth of 1 or more, when some candidate of `generateMoves` has a branch
value above `INT_MIN`, `findBestMove` returns a candidate `m` of the list such
that every candidate before it has a strictly smaller branch value and every
candidate after it has a branch value that is not greater: the first candidate
of greatest branch value. -/
theorem findBestMove_first_maximum (ev : Board → Int) (fuel : Nat) (b : Board) (depth : Int)
    (h1 : 1 ≤ depth) (hf : depth ≤ fuel)
    (hsome : ∃ m ∈ b.generateMoves, ∃ v, branchValue ev fuel b depth m = some v ∧ INT_MIN < v) :
    ∃ pre m post v, b.generateMoves = pre ++ m :: post ∧
      findBestMoveWith ev fuel b depth = some (some m, b) ∧
      branchValue ev fuel b depth m = some v ∧
      (∀ m' ∈ pre, ∃ v', branchValue ev fuel b depth m' = some v' ∧ v' < v) ∧
      (∀ m' ∈ post, ∃ v', branchValue ev fuel b depth m' = some v' ∧ v' ≤ v) := by
  have hlt : INT_MIN < depth := INT_MIN_lt_of_nonneg (by omega)
  let val : Board → Int := fun b' =>
    ((minimaxWith ev fuel b' (depth - 1) INT_MIN INT_MAX false).map Prod.fst).getD 0
  have hval : ∀ b', minimaxWith ev fuel b' (depth - 1) INT_MIN INT_MAX false
      = some (val b', b') := by
    intro b'
    obtain ⟨v, hv⟩ := minimaxWith_returns ev fuel b' (depth - 1) INT_MIN INT_MAX false
      (by omega) (by omega)
    simp only [val, hv, Option.map_some', Option.getD_some]
  have hbranch : ∀ m ∈ b.generateMoves, branchValue ev fuel b depth m = some (val (b.moved m)) := by
    intro m hm
    rw [branchValue_eq ev fuel b depth (b.generateMoves_inBounds hm), hval]
    rfl
  obtain ⟨best, bv, hrun, hinv⟩ := rootLoop_bestSoFar
    (fun b' => if INT_MIN < depth then minimaxWith ev fuel b' (depth - 1) INT_MIN INT_MAX false
      else none) b val (by intro b'; simp only [if_pos hlt]; exact hval b')
    b.generateMoves (fun m hm => b.generateMoves_inBounds hm) [] none INT_MIN
    (Or.inl ⟨rfl, rfl, by simp⟩)
  rw [List.nil_append] at hinv
  rcases hinv with ⟨-, -, hall⟩ | ⟨pre, m, post, hlist, hb, -, hpre, hpost⟩
  · exfalso
    obtain ⟨m, hm, v, hv, hvlt⟩ := hsome
    rw [hbranch m hm] at hv
    have := hall m hm
    simp only at this
    have hveq : val (b.moved m) = v := Option.some.inj hv
    omega
  · subst hb
    have hmem : ∀ m' ∈ pre ++ m :: post, m' ∈ b.generateMoves := by
      intro m' hm'
      rw [hlist]
      exact hm'
    refine ⟨pre, m, post, val (b.moved m), hlist, hrun, hbranch m (hmem m (by simp)), ?_, ?_⟩
    · intro m' hm'
      exact ⟨_, hbranch m' (hmem m' (by simp [hm'])), hpre m' hm'⟩
    · intro m' hm'
      exact ⟨_, hbranch m' (hmem m' (by simp [hm'])), hpost m' hm'⟩

/-- A witness of C4: the evaluator that counts the occupied cells, on the board with
two kings next to each other, at depth 1. The candidates that lose a king (the
captures and the moves of a king onto its own square) have value 1, those that
keep both kings have value 2; the first of the latter, the move of the king on
a8 to b8, is the one returned. -/
theorem findBestMove_first_maximum_witness :
    ((1 : Int) ≤ 1 ∧ (1 : Int) ≤ (1 : Nat) ∧
      ∃ m ∈ ((Board.empty.set 0 0 'k').set 1 1 'K').generateMoves, ∃ v,
        branchValue countPieces 1 ((Board.empty.set 0 0 'k').set 1 1 'K') 1 m = some v ∧
          INT_MIN < v) ∧
    (∃ pre m post v, ((Board.empty.set 0 0 'k').set 1 1 'K').generateMoves = pre ++ m :: post ∧
      findBestMoveWith countPieces 1 ((Board.empty.set 0 0 'k').set 1 1 'K') 1 =
        some (some m, (Board.empty.set 0 0 'k').set 1 1 'K') ∧
      branchValue countPieces 1 ((Board.empty.set 0 0 'k').set 1 1 'K') 1 m = some v ∧
      (∀ m' ∈ pre, ∃ v',
        branchValue countPieces 1 ((Board.empty.set 0 0 'k').set 1 1 'K') 1 m' = some v' ∧
          v' < v) ∧
      (∀ m' ∈ post, ∃ v',
        branchValue countPieces 1 ((Board.empty.set 0 0 'k').set 1 1 'K') 1 m' = some v' ∧
          v' ≤ v)) ∧
    findBestMoveWith countPieces 1 ((Board.empty.set 0 0 'k').set 1 1 'K') 1 =
      some (some ⟨0, 0, 1, 0⟩, (Board.empty.set 0 0 'k').set 1 1 'K') :=
  ⟨⟨by decide, by decide, ⟨0, 0, 1, 0⟩, by decide!, 2, by decide!, by decide⟩,
   findBestMove_first_maximum countPieces 1 ((Board.empty.set 0 0 'k').set 1 1 'K') 1
     (by decide) (by decide) ⟨⟨0, 0, 1, 0⟩, by decide!, 2, by decide!, by decide⟩,
   by decide!⟩

/-! ## Counting the occupied cells -/

theorem Board.moved_cast (b : Board) (sx sy ex ey : Fin 8) :
    b.moved ⟨(sx.val : Int), (sy.val : Int), (ex.val : Int), (ey.val : Int)⟩ =
      (b.set ey ex (b.cell sy sx)).set sy sx '.' := by
  unfold Board.moved
  rw [Board.applyMove_cast]
  rfl

theorem Board.mem_generateMoves_cast (b : Board) (sx sy ex ey : Fin 8) :
    (⟨(sx.val : Int), (sy.val : Int), (ex.val : Int), (ey.val : Int)⟩ : Move) ∈ b.generateMoves ↔
      b.cell sy sx ≠ '.' ∧
        ((ex.val : Int) - sx.val = -1 ∨ (ex.val : Int) - sx.val = 0 ∨ (ex.val : Int) - sx.val = 1) ∧
        ((ey.val : Int) - sy.val = -1 ∨ (ey.val : Int) - sy.val = 0 ∨ (ey.val : Int) - sy.val = 1) := by
  rw [Board.mem_generateMoves]
  constructor
  · rintro ⟨y, x, hc, dy, hdy, dx, hdx, -, heq⟩
    simp only [Move.mk.injEq] at heq
    obtain ⟨h1, h2, h3, h4⟩ := heq
    have hx : sx = x := Fin.ext (by omega)
    have hy : sy = y := Fin.ext (by omega)
    subst hx hy
    simp only [offsets, List.mem_cons, List.mem_singleton, List.not_mem_nil, or_false] at hdy hdx
    refine ⟨hc, ?_, ?_⟩ <;> omega
  · rintro ⟨hc, hdx, hdy⟩
    refine ⟨sy, sx, hc, (ey.val : Int) - sy.val, ?_, (ex.val : Int) - sx.val, ?_, ?_, ?_⟩
    · simp only [offsets, List.mem_cons, List.mem_singleton, List.not_mem_nil, or_false]
      exact hdy
    · simp only [offsets, List.mem_cons, List.mem_singleton, List.not_mem_nil, or_false]
      exact hdx
    · omega
    · rw [Move.mk.injEq]
      refine ⟨rfl, rfl, ?_, ?_⟩ <;> ring

theorem Board.occupied_moved (b : Board) (sx sy ex ey : Fin 8) (hs : b.cell sy sx ≠ '.') :
    ((b.set ey ex (b.cell sy sx)).set sy sx '.').occupied =
      if b.cell ey ex = '.' then b.occupied else b.occupied - 1 := by
  unfold Board.occupied
  have hset : (Finset.univ.filter fun p : Fin 8 × Fin 8 =>
        ((b.set ey ex (b.cell sy sx)).set sy sx '.').cell p.1 p.2 ≠ '.') =
      (insert (ey, ex) (Finset.univ.filter fun p : Fin 8 × Fin 8 => b.cell p.1 p.2 ≠ '.')).erase
        (sy, sx) := by
    ext ⟨i, j⟩
    simp only [Finset.mem_filter, Finset.mem_univ, true_and, Finset.mem_erase, Finset.mem_insert,
      Board.cell_set, Prod.mk.injEq, ne_eq]
    by_cases h1 : i = sy ∧ j = sx
    · simp [h1]
    · by_cases h2 : i = ey ∧ j = ex
      · simp [h1, h2, hs]
      · simp [h1, h2]
  have hmem : (sy, sx) ∈ insert (ey, ex)
      (Finset.univ.filter fun p : Fin 8 × Fin 8 => b.cell p.1 p.2 ≠ '.') := by
    simp [hs]
  rw [hset, Finset.card_erase_of_mem hmem]
  by_cases he : b.cell ey ex = '.'
  · rw [if_pos he, Finset.card_insert_of_not_mem (by simp [he])]
    rfl
  · rw [if_neg he, Finset.insert_eq_of_mem (by simp [he])]

/-- A generated move keeps the number of occupied cells or lowers it by one. -/
theorem Board.occupied_moved_bounds (b : Board) {m : Move} (hm : m ∈ b.generateMoves) :
    b.occupied - 1 ≤ (b.moved m).occupied ∧ (b.moved m).occupied ≤ b.occupied := by
  obtain ⟨sx, sy, ex, ey, rfl⟩ := (Move.inBounds_iff_indices m).mp (b.generateMoves_inBounds hm)
  have hs := ((b.mem_generateMoves_cast sx sy ex ey).mp hm).1
  rw [Board.moved_cast, Board.occupied_moved b sx sy ex ey hs]
  split <;> omega

theorem Board.exists_cell_of_occupied_pos (b : Board) (h : 0 < b.occupied) :
    ∃ y x : Fin 8, b.cell y x ≠ '.' := by
  unfold Board.occupied at h
  obtain ⟨⟨y, x⟩, hp⟩ := Finset.card_pos.mp h
  exact ⟨y, x, by simpa using hp⟩

theorem Board.generateMoves_eq_nil (b : Board) (h : b.occupied = 0) : b.generateMoves = [] := by
  have hall : ∀ y x : Fin 8, b.cell y x = '.' := by
    intro y x
    by_contra hc
    unfold Board.occupied at h
    have : (y, x) ∈ Finset.univ.filter fun p : Fin 8 × Fin 8 => b.cell p.1 p.2 ≠ '.' := by
      simp [hc]
    rw [Finset.card_eq_zero] at h
    rw [h] at this
    simp at this
  apply List.eq_nil_iff_forall_not_mem.mpr
  intro m hm
  obtain ⟨y, x, hc, -⟩ := (b.mem_generateMoves m).mp hm
  exact hc (hall y x)

/-- The move of a piece onto its own square is generated, and removes the piece. -/
theorem Board.exists_move_to_fewer (b : Board) (h : 0 < b.occupied) :
    ∃ m ∈ b.generateMoves, (b.moved m).occupied = b.occupied - 1 := by
  obtain ⟨y, x, hc⟩ := b.exists_cell_of_occupied_pos h
  refine ⟨⟨(x.val : Int), (y.val : Int), (x.val : Int), (y.val : Int)⟩, ?_, ?_⟩
  · rw [Board.mem_generateMoves_cast]
    exact ⟨hc, by omega, by omega⟩
  · rw [Board.moved_cast, Board.occupied_moved b x y x y hc, if_neg hc]


/-- A square next to a given index on one axis. -/
theorem exists_adjacent_index (i : Fin 8) :
    ∃ j : Fin 8, j ≠ i ∧ ((j.val : Int) - i.val = -1 ∨ (j.val : Int) - i.val = 1) := by
  by_cases h : i.val < 7
  · exact ⟨⟨i.val + 1, by omega⟩, by intro hc; have := congrArg Fin.val hc; simp at this,
      Or.inr (by simp)⟩
  · have h7 : i.val = 7 := by omega
    exact ⟨⟨6, by omega⟩, by intro hc; have := congrArg Fin.val hc; simp at this; omega,
      Or.inl (by simp [h7])⟩

/-- With two or more occupied cells, some generated move leaves two or more. -/
theorem Board.exists_move_keeping_two (b : Board) (h : 2 ≤ b.occupied) :
    ∃ m ∈ b.generateMoves, 2 ≤ (b.moved m).occupied := by
  obtain ⟨y, x, hc⟩ := b.exists_cell_of_occupied_pos (by omega)
  obtain ⟨x', hx', hdx⟩ := exists_adjacent_index x
  obtain ⟨y', hy', hdy⟩ := exists_adjacent_index y
  by_cases h1 : b.cell y x' = '.'
  · refine ⟨⟨(x.val : Int), (y.val : Int), (x'.val : Int), (y.val : Int)⟩, ?_, ?_⟩
    · rw [Board.mem_generateMoves_cast]
      exact ⟨hc, by omega, by omega⟩
    · rw [Board.moved_cast, Board.occupied_moved b x y x' y hc, if_pos h1]
      exact h
  · by_cases h2 : b.cell y' x = '.'
    · refine ⟨⟨(x.val : Int), (y.val : Int), (x.val : Int), (y'.val : Int)⟩, ?_, ?_⟩
      · rw [Board.mem_generateMoves_cast]
        exact ⟨hc, by omega, by omega⟩
      · rw [Board.moved_cast, Board.occupied_moved b x y x y' hc, if_pos h2]
        exact h
    · have h3 : 2 < b.occupied := by
        unfold Board.occupied
        rw [Finset.two_lt_card]
        refine ⟨(y, x), by simp [hc], (y, x'), by simp [h1], (y', x), by simp [h2], ?_, ?_, ?_⟩
        · simp only [ne_eq, Prod.mk.injEq, true_and]
          exact fun hh => hx' hh.symm
        · simp only [ne_eq, Prod.mk.injEq, and_true]
          exact fun hh => hy' hh.symm
        · simp only [ne_eq, Prod.mk.injEq, not_and]
          exact fun hh => absurd hh.symm hy'
      obtain ⟨m, hm, hocc⟩ := b.exists_move_to_fewer (by omega)
      exact ⟨m, hm, by omega⟩

/-! ## The board is restored whenever the search returns -/

theorem guarded_eq_some {α : Type} {c : Prop} [Decidable c] {x : Option α} {r : α}
    (h : (if c then x else none) = some r) : x = some r := by
  split at h
  · exact h
  · cases h

/-- When `tryMove` returns, it returns the caller's board and the value of the call
on the mutated board, provided that call returns its board as it was. -/
theorem tryMove_some_inv (child : Board → Option (Int × Board)) (b : Board) {m : Move}
    (hm : m.inBounds) (hframe : ∀ r, child (b.moved m) = some r → r.2 = b.moved m)
    {v : Int} {b' : Board} (h : tryMove child b m = some (v, b')) :
    b' = b ∧ child (b.moved m) = some (v, b.moved m) := by
  cases hc : child (b.moved m) with
  | none =>
    rw [tryMove_eq_none child b hm hc] at h
    cases h
  | some r =>
    obtain ⟨e, b2⟩ := r
    have hb2 : b2 = b.moved m := hframe _ hc
    subst hb2
    rw [tryMove_eq_some child b hm hc] at h
    simp only [Option.some.injEq, Prod.mk.injEq] at h
    obtain ⟨rfl, rfl⟩ := h
    exact ⟨rfl, rfl⟩

theorem maxLoop_frame (child : Board → Int → Int → Option (Int × Board)) (beta : Int)
    (hframe : ∀ b1 a be r, child b1 a be = some r → r.2 = b1) :
    ∀ (l : List Move), (∀ m ∈ l, m.inBounds) → ∀ b maxEval alpha r,
      maxLoop child beta l b maxEval alpha = some r → r.2 = b := by
  intro l
  induction l with
  | nil =>
    intro _ b maxEval alpha r h
    simp only [maxLoop, Option.some.injEq] at h
    rw [← h]
  | cons m rest ih =>
    intro hl b maxEval alpha r h
    unfold maxLoop at h
    cases ht : tryMove (fun b' => child b' alpha beta) b m with
    | none => rw [ht] at h; cases h
    | some p =>
      obtain ⟨e, b1⟩ := p
      obtain ⟨rfl, -⟩ := tryMove_some_inv (fun b' => child b' alpha beta) b
        (hl m (List.mem_cons_self _ _)) (fun r hr => hframe _ _ _ r hr) ht
      rw [ht] at h
      simp only at h
      split at h
      · simp only [Option.some.injEq] at h
        rw [← h]
      · exact ih (fun m' hm' => hl m' (List.mem_cons_of_mem _ hm')) _ _ _ r h

theorem minLoop_frame (child : Board → Int → Int → Option (Int × Board)) (alpha : Int)
    (hframe : ∀ b1 a be r, child b1 a be = some r → r.2 = b1) :
    ∀ (l : List Move), (∀ m ∈ l, m.inBounds) → ∀ b minEval beta r,
      minLoop child alpha l b minEval beta = some r → r.2 = b := by
  intro l
  induction l with
  | nil =>
    intro _ b minEval beta r h
    simp only [minLoop, Option.some.injEq] at h
    rw [← h]
  | cons m rest ih =>
    intro hl b minEval beta r h
    unfold minLoop at h
    cases ht : tryMove (fun b' => child b' alpha beta) b m with
    | none => rw [ht] at h; cases h
    | some p =>
      obtain ⟨e, b1⟩ := p
      obtain ⟨rfl, -⟩ := tryMove_some_inv (fun b' => child b' alpha beta) b
        (hl m (List.mem_cons_self _ _)) (fun r hr => hframe _ _ _ r hr) ht
      rw [ht] at h
      simp only at h
      split at h
      · simp only [Option.some.injEq] at h
        rw [← h]
      · exact ih (fun m' hm' => hl m' (List.mem_cons_of_mem _ hm')) _ _ _ r h

/-- At any depth, negative ones included, a `minimax` call that returns leaves the
board it was given. -/
theorem minimaxWith_frame (ev : Board → Int) :
    ∀ (fuel : Nat) (b : Board) (depth alpha beta : Int) (mx : Bool) (r : Int × Board),
      minimaxWith ev fuel b depth alpha beta mx = some r → r.2 = b := by
  intro fuel
  induction fuel with
  | zero => intro b depth alpha beta mx r h; simp only [minimaxWith] at h; cases h
  | succ fuel ih =>
    intro b depth alpha beta mx r h
    unfold minimaxWith at h
    split at h
    · simp only [Option.some.injEq] at h
      rw [← h]
    · split at h
      · exact maxLoop_frame _ beta (fun b1 a be r hr => ih b1 _ a be false r (guarded_eq_some hr))
          _ (fun m hm => b.generateMoves_inBounds hm) b _ _ r h
      · exact minLoop_frame _ alpha (fun b1 a be r hr => ih b1 _ a be true r (guarded_eq_some hr))
          _ (fun m hm => b.generateMoves_inBounds hm) b _ _ r h

/-! ## Below depth 0: the search on a board that still holds two pieces -/

theorem maxLoop_sentinel (child : Board → Int → Int → Option (Int × Board)) (alpha beta : Int)
    (b : Board) (hab : alpha < beta) (ha : INT_MIN ≤ alpha) (hb : beta ≤ INT_MAX)
    (hframe : ∀ b1 a be r, child b1 a be = some r → r.2 = b1) :
    ∀ (l : List Move),
      (∀ m ∈ l, m.inBounds ∧
        ∀ r, child (b.moved m) alpha beta = some r → r.1 = INT_MIN ∨ r.1 = INT_MAX) →
      (∃ m ∈ l, ∀ r, child (b.moved m) alpha beta = some r → r.1 = INT_MAX) →
      ∀ r, maxLoop child beta l b INT_MIN alpha = some r → r.1 = INT_MAX := by
  have hmm : INT_MIN < INT_MAX := by decide
  intro l
  induction l with
  | nil => intro _ hex; obtain ⟨m, hm, -⟩ := hex; cases hm
  | cons m rest ih =>
    intro hl hex r h
    unfold maxLoop at h
    cases ht : tryMove (fun b' => child b' alpha beta) b m with
    | none => rw [ht] at h; cases h
    | some p =>
      obtain ⟨e, b1⟩ := p
      obtain ⟨rfl, hc⟩ := tryMove_some_inv (fun b' => child b' alpha beta) b
        (hl m (List.mem_cons_self _ _)).1 (fun r hr => hframe _ _ _ r hr) ht
      rw [ht] at h
      simp only at h
      rcases (hl m (List.mem_cons_self _ _)).2 _ hc with he | he
      · simp only at he
        subst he
        have h1 : max alpha INT_MIN = alpha := by omega
        have h2 : max INT_MIN INT_MIN = INT_MIN := by omega
        rw [h1, h2, if_neg (by omega)] at h
        apply ih (fun m' hm' => hl m' (List.mem_cons_of_mem _ hm')) ?_ r h
        obtain ⟨m', hm', hhigh⟩ := hex
        rcases List.mem_cons.mp hm' with heq | hin
        · subst heq
          have := hhigh _ hc
          simp only at this
          omega
        · exact ⟨m', hin, hhigh⟩
      · simp only at he
        subst he
        rw [if_pos (by omega)] at h
        simp only [Option.some.injEq] at h
        rw [← h]
        simp only
        omega

theorem minLoop_sentinel (child : Board → Int → Int → Option (Int × Board)) (alpha beta : Int)
    (b : Board) (hab : alpha < beta) (ha : INT_MIN ≤ alpha) (hb : beta ≤ INT_MAX)
    (hframe : ∀ b1 a be r, child b1 a be = some r → r.2 = b1) :
    ∀ (l : List Move),
      (∀ m ∈ l, m.inBounds ∧
        ∀ r, child (b.moved m) alpha beta = some r → r.1 = INT_MAX ∨ r.1 = INT_MIN) →
      (∃ m ∈ l, ∀ r, child (b.moved m) alpha beta = some r → r.1 = INT_MIN) →
      ∀ r, minLoop child alpha l b INT_MAX beta = some r → r.1 = INT_MIN := by
  have hmm : INT_MIN < INT_MAX := by decide
  intro l
  induction l with
  | nil => intro _ hex; obtain ⟨m, hm, -⟩ := hex; cases hm
  | cons m rest ih =>
    intro hl hex r h
    unfold minLoop at h
    cases ht : tryMove (fun b' => child b' alpha beta) b m with
    | none => rw [ht] at h; cases h
    | some p =>
      obtain ⟨e, b1⟩ := p
      obtain ⟨rfl, hc⟩ := tryMove_some_inv (fun b' => child b' alpha beta) b
        (hl m (List.mem_cons_self _ _)).1 (fun r hr => hframe _ _ _ r hr) ht
      rw [ht] at h
      simp only at h
      rcases (hl m (List.mem_cons_self _ _)).2 _ hc with he | he
      · simp only at he
        subst he
        have h1 : min beta INT_MAX = beta := by omega
        have h2 : min INT_MAX INT_MAX = INT_MAX := by omega
        rw [h1, h2, if_neg (by omega)] at h
        apply ih (fun m' hm' => hl m' (List.mem_cons_of_mem _ hm')) ?_ r h
        obtain ⟨m', hm', hlow⟩ := hex
        rcases List.mem_cons.mp hm' with heq | hin
        · subst heq
          have := hlow _ hc
          simp only at this
          omega
        · exact ⟨m', hin, hlow⟩
      · simp only at he
        subst he
        rw [if_pos (by omega)] at h
        simp only [Option.some.injEq] at h
        rw [← h]
        simp only
        omega

theorem maxLoop_never (child : Board → Int → Int → Option (Int × Board)) (alpha beta : Int)
    (b : Board) (hab : alpha < beta) (ha : INT_MIN ≤ alpha)
    (hframe : ∀ b1 a be r, child b1 a be = some r → r.2 = b1) :
    ∀ (l : List Move),
      (∀ m ∈ l, m.inBounds ∧ ∀ r, child (b.moved m) alpha beta = some r → r.1 = INT_MIN) →
      (∃ m ∈ l, child (b.moved m) alpha beta = none) →
      maxLoop child beta l b INT_MIN alpha = none := by
  intro l
  induction l with
  | nil => intro _ hex; obtain ⟨m, hm, -⟩ := hex; cases hm
  | cons m rest ih =>
    intro hl hex
    unfold maxLoop
    cases ht : tryMove (fun b' => child b' alpha beta) b m with
    | none => rfl
    | some p =>
      obtain ⟨e, b1⟩ := p
      obtain ⟨rfl, hc⟩ := tryMove_some_inv (fun b' => child b' alpha beta) b
        (hl m (List.mem_cons_self _ _)).1 (fun r hr => hframe _ _ _ r hr) ht
      have he := (hl m (List.mem_cons_self _ _)).2 _ hc
      simp only at he ⊢
      subst he
      have h1 : max alpha INT_MIN = alpha := by omega
      have h2 : max INT_MIN INT_MIN = INT_MIN := by omega
      rw [h1, h2, if_neg (by omega)]
      apply ih (fun m' hm' => hl m' (List.mem_cons_of_mem _ hm'))
      obtain ⟨m', hm', hnone⟩ := hex
      rcases List.mem_cons.mp hm' with heq | hin
      · subst heq
        rw [hnone] at hc
        cases hc
      · exact ⟨m', hin, hnone⟩

theorem minLoop_never (child : Board → Int → Int → Option (Int × Board)) (alpha beta : Int)
    (b : Board) (hab : alpha < beta) (hb : beta ≤ INT_MAX)
    (hframe : ∀ b1 a be r, child b1 a be = some r → r.2 = b1) :
    ∀ (l : List Move),
      (∀ m ∈ l, m.inBounds ∧ ∀ r, child (b.moved m) alpha beta = some r → r.1 = INT_MAX) →
      (∃ m ∈ l, child (b.moved m) alpha beta = none) →
      minLoop child alpha l b INT_MAX beta = none := by
  intro l
  induction l with
  | nil => intro _ hex; obtain ⟨m, hm, -⟩ := hex; cases hm
  | cons m rest ih =>
    intro hl hex
    unfold minLoop
    cases ht : tryMove (fun b' => child b' alpha beta) b m with
    | none => rfl
    | some p =>
      obtain ⟨e, b1⟩ := p
      obtain ⟨rfl, hc⟩ := tryMove_some_inv (fun b' => child b' alpha beta) b
        (hl m (List.mem_cons_self _ _)).1 (fun r hr => hframe _ _ _ r hr) ht
      have he := (hl m (List.mem_cons_self _ _)).2 _ hc
      simp only at he ⊢
      subst he
      have h1 : min beta INT_MAX = beta := by omega
      have h2 : min INT_MAX INT_MAX = INT_MAX := by omega
      rw [h1, h2, if_neg (by omega)]
      apply ih (fun m' hm' => hl m' (List.mem_cons_of_mem _ hm'))
      obtain ⟨m', hm', hnone⟩ := hex
      rcases List.mem_cons.mp hm' with heq | hin
      · subst heq
        rw [hnone] at hc
        cases hc
      · exact ⟨m', hin, hnone⟩

/-- Away from depth 0, on the board without pieces the loops have nothing to
iterate over and the initial `maxEval` or `minEval` is returned. -/
theorem minimaxWith_no_pieces (ev : Board → Int) (fuel : Nat) (b : Board)
    (depth alpha beta : Int) (mx : Bool) (hocc : b.occupied = 0) (hd : depth ≠ 0)
    (r : Int × Board) (h : minimaxWith ev fuel b depth alpha beta mx = some r) :
    r.1 = if mx then INT_MIN else INT_MAX := by
  cases fuel with
  | zero => simp only [minimaxWith] at h; cases h
  | succ fuel =>
    unfold minimaxWith at h
    rw [if_neg hd, b.generateMoves_eq_nil hocc] at h
    cases mx with
    | true =>
      simp only [if_true, maxLoop, Option.some.injEq] at h
      rw [← h]
      rfl
    | false =>
      simp only [Bool.false_eq_true, if_false, minLoop, Option.some.injEq] at h
      rw [← h]
      rfl

/-- Below depth 0, on a board with one piece, a call that returns has returned the
sentinel of the cutoff: `INT_MAX` when maximizing, `INT_MIN` when minimizing. -/
theorem minimaxWith_one_piece (ev : Board → Int) :
    ∀ (fuel : Nat) (b : Board) (depth alpha beta : Int) (mx : Bool),
      b.occupied = 1 → depth < 0 → INT_MIN ≤ alpha → alpha < beta → beta ≤ INT_MAX →
      ∀ r, minimaxWith ev fuel b depth alpha beta mx = some r →
        r.1 = if mx then INT_MAX else INT_MIN := by
  intro fuel
  induction fuel with
  | zero => intro b depth alpha beta mx _ _ _ _ _ r h; simp only [minimaxWith] at h; cases h
  | succ fuel ih =>
    intro b depth alpha beta mx hocc hd ha hab hb r h
    unfold minimaxWith at h
    rw [if_neg (by omega)] at h
    obtain ⟨m0, hm0, hm0occ⟩ := b.exists_move_to_fewer (by omega)
    have hkids : ∀ m ∈ b.generateMoves,
        (b.moved m).occupied = 1 ∨ (b.moved m).occupied = 0 := by
      intro m hm
      have := b.occupied_moved_bounds hm
      omega
    cases mx with
    | true =>
      simp only [if_true] at h ⊢
      refine maxLoop_sentinel _ alpha beta b hab ha hb
        (fun b1 a be r hr => minimaxWith_frame ev fuel b1 _ a be false r (guarded_eq_some hr))
        b.generateMoves ?_ ?_ r h
      · intro m hm
        refine ⟨b.generateMoves_inBounds hm, fun r hr => ?_⟩
        have hr' := guarded_eq_some hr
        rcases hkids m hm with h1 | h0
        · left
          simpa using ih _ _ _ _ false h1 (by omega) ha hab hb r hr'
        · right
          simpa using minimaxWith_no_pieces ev fuel _ _ _ _ false h0 (by omega) r hr'
      · refine ⟨m0, hm0, fun r hr => ?_⟩
        simpa using minimaxWith_no_pieces ev fuel _ _ _ _ false (by omega) (by omega) r
          (guarded_eq_some hr)
    | false =>
      simp only [Bool.false_eq_true, if_false] at h ⊢
      refine minLoop_sentinel _ alpha beta b hab ha hb
        (fun b1 a be r hr => minimaxWith_frame ev fuel b1 _ a be true r (guarded_eq_some hr))
        b.generateMoves ?_ ?_ r h
      · intro m hm
        refine ⟨b.generateMoves_inBounds hm, fun r hr => ?_⟩
        have hr' := guarded_eq_some hr
        rcases hkids m hm with h1 | h0
        · left
          simpa using ih _ _ _ _ true h1 (by omega) ha hab hb r hr'
        · right
          simpa using minimaxWith_no_pieces ev fuel _ _ _ _ true h0 (by omega) r hr'
      · refine ⟨m0, hm0, fun r hr => ?_⟩
        simpa using minimaxWith_no_pieces ev fuel _ _ _ _ true (by omega) (by omega) r
          (guarded_eq_some hr)

/-- Below depth 0, on a board with two or more pieces, `minimax` inside an open
window of `int`s never returns normally, however many frames it is given: the
depth moves away from 0, the boards with one piece give back sentinels that
leave the window as it is, and some move always keeps two pieces. -/
theorem minimaxWith_never_returns (ev : Board → Int) :
    ∀ (fuel : Nat) (b : Board) (depth alpha beta : Int) (mx : Bool),
      2 ≤ b.occupied → depth < 0 → INT_MIN ≤ alpha → alpha < beta → beta ≤ INT_MAX →
      minimaxWith ev fuel b depth alpha beta mx = none := by
  intro fuel
  induction fuel with
  | zero => intro b depth alpha beta mx _ _ _ _ _; rfl
  | succ fuel ih =>
    intro b depth alpha beta mx hocc hd ha hab hb
    unfold minimaxWith
    rw [if_neg (by omega)]
    obtain ⟨m0, hm0, hm0occ⟩ := b.exists_move_keeping_two hocc
    have hkids : ∀ m ∈ b.generateMoves,
        (b.moved m).occupied = 1 ∨ 2 ≤ (b.moved m).occupied := by
      intro m hm
      have := b.occupied_moved_bounds hm
      omega
    cases mx with
    | true =>
      simp only [if_true]
      refine maxLoop_never _ alpha beta b hab ha
        (fun b1 a be r hr => minimaxWith_frame ev fuel b1 _ a be false r (guarded_eq_some hr))
        b.generateMoves ?_ ?_
      · intro m hm
        refine ⟨b.generateMoves_inBounds hm, fun r hr => ?_⟩
        have hr' := guarded_eq_some hr
        rcases hkids m hm with h1 | h2
        · simpa using minimaxWith_one_piece ev fuel _ _ _ _ false h1 (by omega) ha hab hb r hr'
        · rw [ih _ _ _ _ false h2 (by omega) ha hab hb] at hr'
          cases hr'
      · refine ⟨m0, hm0, ?_⟩
        split
        · exact ih _ _ _ _ false hm0occ (by omega) ha hab hb
        · rfl
    | false =>
      simp only [Bool.false_eq_true, if_false]
      refine minLoop_never _ alpha beta b hab hb
        (fun b1 a be r hr => minimaxWith_frame ev fuel b1 _ a be true r (guarded_eq_some hr))
        b.generateMoves ?_ ?_
      · intro m hm
        refine ⟨b.generateMoves_inBounds hm, fun r hr => ?_⟩
        have hr' := guarded_eq_some hr
        rcases hkids m hm with h1 | h2
        · simpa using minimaxWith_one_piece ev fuel _ _ _ _ true h1 (by omega) ha hab hb r hr'
        · rw [ih _ _ _ _ true h2 (by omega) ha hab hb] at hr'
          cases hr'
      · refine ⟨m0, hm0, ?_⟩
        split
        · exact ih _ _ _ _ true hm0occ (by omega) ha hab hb
        · rfl

/-- On a board whose first candidate leaves two or more pieces, `findBestMove` at
depth 0 does not return: its first `minimax` call starts at depth -1. -/
theorem findBestMoveWith_depth_zero_none (ev : Board → Int) (fuel : Nat) (b : Board)
    (m : Move) (rest : List Move) (hlist : b.generateMoves = m :: rest)
    (hocc : 2 ≤ (b.moved m).occupied) :
    findBestMoveWith ev fuel b 0 = none := by
  have hm : m.inBounds := b.generateMoves_inBounds (by rw [hlist]; exact List.mem_cons_self _ _)
  unfold findBestMoveWith
  rw [hlist]
  unfold rootLoop
  rw [tryMove_eq_none _ b hm]
  simp only [if_pos (INT_MIN_lt_of_nonneg (le_refl (0 : Int)))]
  exact minimaxWith_never_returns ev fuel _ _ _ _ false hocc (by omega) (le_refl _) (by decide)
    (le_refl _)

/-- A counterexample to C10: on the starting board `findBestMove` at depth 0 returns
within no number of nested `minimax` frames; the first root candidate already
leads to a `minimax` call at depth -1 on a board with 31 pieces. -/
theorem findBestMove_depth_zero_never_returns :
    ¬ ∃ fuel : Nat, (ChessAI.findBestMove fuel Board.start 0).isSome = true := by
  rintro ⟨fuel, h⟩
  have hnone : ChessAI.findBestMove fuel Board.start 0 = none :=
    findBestMoveWith_depth_zero_none ChessAI.evaluate fuel Board.start ⟨0, 0, 0, 0⟩
      Board.start.generateMoves.tail (by decide!) (by decide!)
  rw [hnone] at h
  cases h

/-- C5 on the code: on the board whose only piece is a king on d5, at depth 2,
`findBestMove` does not return the first generated move, d5 to c6 of branch
value 0, but the move of the king onto its own square, which empties the board
and gets the branch value `INT_MAX` from a minimizing node without moves. -/
theorem findBestMove_single_piece_not_first :
    (Board.empty.set 3 3 'K').occupied = 1 ∧
      (Board.empty.set 3 3 'K').generateMoves.head? = some ⟨3, 3, 2, 2⟩ ∧
      ChessAI.findBestMove 2 (Board.empty.set 3 3 'K') 2 =
        some (some ⟨3, 3, 3, 3⟩, Board.empty.set 3 3 'K') ∧
      branchValue ChessAI.evaluate 2 (Board.empty.set 3 3 'K') 2 ⟨3, 3, 2, 2⟩ = some 0 ∧
      branchValue ChessAI.evaluate 2 (Board.empty.set 3 3 'K') 2 ⟨3, 3, 3, 3⟩ = some INT_MAX := by
  decide!

/-! ## What the generator depends on, and what it hands to the search -/

theorem Board.generateMoves_congr (b b' : Board)
    (h : ∀ y x : Fin 8, b.cell y x ≠ '.' ↔ b'.cell y x ≠ '.') :
    b.generateMoves = b'.generateMoves := by
  unfold Board.generateMoves
  congr 1
  funext y
  congr 1
  funext x
  by_cases hc : b.cell y x ≠ '.'
  · rw [if_pos hc, if_pos ((h y x).mp hc)]
  · rw [if_neg hc, if_neg (fun hc' => hc ((h y x).mpr hc'))]

/-- C11: two boards with the same set of non-`'.'` coordinates, whatever letters
they hold there, get the same list of moves in the same order from
`generateMoves`. -/
theorem generateMoves_depends_on_occupancy_only (b b' : Board)
    (h : ∀ y x : Fin 8, b.cell y x ≠ '.' ↔ b'.cell y x ≠ '.') :
    b.generateMoves = b'.generateMoves :=
  Board.generateMoves_congr b b' h

/-- A witness of C11: a white king on d5 and a black pawn on d5 give the same
moves. -/
theorem generateMoves_depends_on_occupancy_only_witness :
    (∀ y x : Fin 8, (Board.empty.set 3 3 'K').cell y x ≠ '.' ↔
        (Board.empty.set 3 3 'p').cell y x ≠ '.') ∧
      (Board.empty.set 3 3 'K').generateMoves = (Board.empty.set 3 3 'p').generateMoves :=
  ⟨by decide, generateMoves_depends_on_occupancy_only _ _ (by decide)⟩

theorem Board.isValidMove_of_mem_generateMoves (b : Board) {m : Move}
    (hm : m ∈ b.generateMoves) : b.isValidMove m = true := by
  rw [Board.isValidMove_eq_true_iff]
  refine ⟨b.generateMoves_inBounds hm, ?_⟩
  obtain ⟨sx, sy, ex, ey, rfl⟩ := (Move.inBounds_iff_indices m).mp (b.generateMoves_inBounds hm)
  have hs := ((b.mem_generateMoves_cast sx sy ex ey).mp hm).1
  exact ⟨b.cell sy sx, b.read_cast sy sx, hs⟩

/-- C19: every move of `generateMoves` is accepted by `isValidMove` on the same
board: its four coordinates are in `[0, 8)` and its origin cell is occupied, so
`applyMove` of it stays inside the grid. -/
theorem generateMoves_all_valid (b : Board) (m : Move) (hm : m ∈ b.generateMoves) :
    b.isValidMove m = true ∧ m.inBounds ∧
      (∃ c, b.read m.startY m.startX = some c ∧ c ≠ '.') ∧ (b.applyMove m).isSome = true := by
  have hv := b.isValidMove_of_mem_generateMoves hm
  have hb := b.generateMoves_inBounds hm
  refine ⟨hv, hb, ((b.isValidMove_eq_true_iff m).mp hv).2, ?_⟩
  rw [b.applyMove_eq_moved hb]
  rfl

/-- A witness of C19: the move of the pawn on e2 to e3 on the starting board. -/
theorem generateMoves_all_valid_witness :
    (⟨4, 6, 4, 5⟩ : Move) ∈ Board.start.generateMoves ∧
      Board.start.isValidMove ⟨4, 6, 4, 5⟩ = true ∧ Move.inBounds ⟨4, 6, 4, 5⟩ ∧
      (∃ c, Board.start.read 6 4 = some c ∧ c ≠ '.') ∧
      (Board.start.applyMove ⟨4, 6, 4, 5⟩).isSome = true :=
  ⟨by decide!, generateMoves_all_valid Board.start ⟨4, 6, 4, 5⟩ (by decide!)⟩

/-! ## The cells after `applyMove` and after a mismatched `undoMove` -/

theorem toIndex_eq_some {v : Int} {i : Fin 8} (h : toIndex v = some i) : v = (i.val : Int) := by
  unfold toIndex at h
  split at h
  · have := congrArg Fin.val (Option.some.inj h)
    simp only at this
    omega
  · cases h

theorem Board.read_congr (b1 b : Board) (y x : Int)
    (h : ∀ i j : Fin 8, y = (i.val : Int) → x = (j.val : Int) → b1.cell i j = b.cell i j) :
    b1.read y x = b.read y x := by
  unfold Board.read
  cases hy : toIndex y with
  | none => rfl
  | some i =>
    cases hx : toIndex x with
    | none => rfl
    | some j =>
      simp only
      rw [h i j (toIndex_eq_some hy) (toIndex_eq_some hx)]

theorem Board.cells_after_apply_cast (b : Board) (sx sy ex ey : Fin 8) (hne : (sy, sx) ≠ (ey, ex)) :
    ∃ b1, b.applyMove ⟨(sx.val : Int), (sy.val : Int), (ex.val : Int), (ey.val : Int)⟩ = some b1 ∧
      b1.cell ey ex = b.cell sy sx ∧ b1.cell sy sx = '.' ∧
      ∀ i j, (i, j) ≠ (sy, sx) → (i, j) ≠ (ey, ex) → b1.cell i j = b.cell i j := by
  refine ⟨_, b.applyMove_cast sx sy ex ey, ?_, ?_, ?_⟩
  · have h : ¬ (ey = sy ∧ ex = sx) := fun h => hne (by rw [h.1, h.2])
    simp only [Board.cell_set, h, if_false, and_self, if_true]
  · simp only [Board.cell_set, and_self, if_true]
  · intro i j h1 h2
    have h1' : ¬ (i = sy ∧ j = sx) := fun h => h1 (by rw [h.1, h.2])
    have h2' : ¬ (i = ey ∧ j = ex) := fun h => h2 (by rw [h.1, h.2])
    simp only [Board.cell_set, h1', h2', if_false]

theorem Board.wrong_capture_cast (b : Board) (sx sy ex ey : Fin 8) (c : Char)
    (hc : c ≠ b.cell ey ex) :
    ∃ b1 b2, b.applyMove ⟨(sx.val : Int), (sy.val : Int), (ex.val : Int), (ey.val : Int)⟩ = some b1 ∧
      b1.undoMove ⟨(sx.val : Int), (sy.val : Int), (ex.val : Int), (ey.val : Int)⟩ c = some b2 ∧
      b2.cell ey ex = c ∧ b2.cell ey ex ≠ b.cell ey ex ∧ b2 ≠ b := by
  refine ⟨_, _, b.applyMove_cast sx sy ex ey, Board.undoMove_cast _ sx sy ex ey c, ?_⟩
  have hcell : ((((b.set ey ex (b.cell sy sx)).set sy sx '.').set sy sx
      (((b.set ey ex (b.cell sy sx)).set sy sx '.').cell ey ex)).set ey ex c).cell ey ex = c := by
    simp only [Board.cell_set, and_self, if_true]
  refine ⟨hcell, ?_, ?_⟩
  · rw [hcell]
    exact hc
  · intro heq
    rw [heq] at hcell
    exact hc hcell.symm

theorem Board.self_move_cast (b : Board) (x y : Fin 8) (hocc : b.cell y x ≠ '.') :
    b.isValidMove ⟨(x.val : Int), (y.val : Int), (x.val : Int), (y.val : Int)⟩ = true ∧
      (⟨(x.val : Int), (y.val : Int), (x.val : Int), (y.val : Int)⟩ : Move) ∈ b.generateMoves ∧
      ∃ b1, b.applyMove ⟨(x.val : Int), (y.val : Int), (x.val : Int), (y.val : Int)⟩ = some b1 ∧
        b1.cell y x = '.' ∧ (∀ i j, (i, j) ≠ (y, x) → b1.cell i j = b.cell i j) ∧
        b1.occupied + 1 = b.occupied := by
  have hmem : (⟨(x.val : Int), (y.val : Int), (x.val : Int), (y.val : Int)⟩ : Move)
      ∈ b.generateMoves := by
    rw [Board.mem_generateMoves_cast]
    exact ⟨hocc, by omega, by omega⟩
  refine ⟨b.isValidMove_of_mem_generateMoves hmem, hmem, _, b.applyMove_cast x y x y, ?_, ?_, ?_⟩
  · simp only [Board.cell_set, and_self, if_true]
  · intro i j h
    have h' : ¬ (i = y ∧ j = x) := fun hh => h (by rw [hh.1, hh.2])
    simp only [Board.cell_set, h', if_false]
  · rw [Board.occupied_moved b x y x y hocc, if_neg hocc]
    have hpos : 0 < b.occupied := by
      unfold Board.occupied
      exact Finset.card_pos.mpr ⟨(y, x), by simp [hocc]⟩
    omega

/-- C13: for an in-bounds move between two different squares, after `applyMove`
the destination cell holds what the origin cell held, the origin cell is `'.'`,
and every other cell reads as before. -/
theorem applyMove_cells (b : Board) (m : Move) (hm : m.inBounds)
    (hne : (m.startX, m.startY) ≠ (m.endX, m.endY)) :
    ∃ b1, b.applyMove m = some b1 ∧
      b1.read m.endY m.endX = b.read m.startY m.startX ∧
      b1.read m.startY m.startX = some '.' ∧
      ∀ y x : Int, (x, y) ≠ (m.startX, m.startY) → (x, y) ≠ (m.endX, m.endY) →
        b1.read y x = b.read y x := by
  obtain ⟨sx, sy, ex, ey, rfl⟩ := (Move.inBounds_iff_indices m).mp hm
  simp only at hne ⊢
  have hne' : (sy, sx) ≠ (ey, ex) := by
    intro h
    apply hne
    simp only [Prod.mk.injEq] at h
    rw [h.1, h.2]
  obtain ⟨b1, h1, h2, h3, h4⟩ := b.cells_after_apply_cast sx sy ex ey hne'
  refine ⟨b1, h1, ?_, ?_, ?_⟩
  · rw [Board.read_cast, Board.read_cast, h2]
  · rw [Board.read_cast, h3]
  · intro y x hs he
    apply Board.read_congr
    intro i j hy hx
    subst hy hx
    apply h4
    · intro h
      apply hs
      simp only [Prod.mk.injEq] at h
      rw [h.1, h.2]
    · intro h
      apply he
      simp only [Prod.mk.injEq] at h
      rw [h.1, h.2]

/-- A witness of C13: the pawn on e2 moved to e4 on the starting board. -/
theorem applyMove_cells_witness :
    (Move.inBounds ⟨4, 6, 4, 4⟩ ∧ ((4 : Int), (6 : Int)) ≠ ((4 : Int), (4 : Int))) ∧
      ∃ b1, Board.start.applyMove ⟨4, 6, 4, 4⟩ = some b1 ∧
        b1.read 4 4 = Board.start.read 6 4 ∧ b1.read 6 4 = some '.' ∧
        ∀ y x : Int, (x, y) ≠ ((4 : Int), (6 : Int)) → (x, y) ≠ ((4 : Int), (4 : Int)) →
          b1.read y x = Board.start.read y x :=
  ⟨⟨by decide, by decide⟩, applyMove_cells Board.start ⟨4, 6, 4, 4⟩ (by decide) (by decide)⟩

/-- C14: for an in-bounds move and a cell value `c` other than what the destination
held, `applyMove` followed by `undoMove` with `c` leaves a board that is not the
original one: its destination cell holds `c`. -/
theorem undoMove_wrong_capture (b : Board) (m : Move) (hm : m.inBounds) (c : Char)
    (hc : b.pieceAt m.endX m.endY ≠ some c) :
    ∃ b1 b2, b.applyMove m = some b1 ∧ b1.undoMove m c = some b2 ∧
      b2.pieceAt m.endX m.endY = some c ∧
      b2.pieceAt m.endX m.endY ≠ b.pieceAt m.endX m.endY ∧ b2 ≠ b := by
  obtain ⟨sx, sy, ex, ey, rfl⟩ := (Move.inBounds_iff_indices m).mp hm
  simp only at hc ⊢
  rw [Board.pieceAt_cast] at hc
  have hc' : c ≠ b.cell ey ex := fun h => hc (by rw [h])
  obtain ⟨b1, b2, h1, h2, h3, h4, h5⟩ := b.wrong_capture_cast sx sy ex ey c hc'
  refine ⟨b1, b2, h1, h2, ?_, ?_, h5⟩
  · rw [Board.pieceAt_cast, h3]
  · rw [Board.pieceAt_cast, Board.pieceAt_cast]
    exact fun h => h4 (Option.some.inj h)

/-- A witness of C14: the pawn on e2 moved to e4, undone with a queen as the captured
piece. -/
theorem undoMove_wrong_capture_witness :
    (Move.inBounds ⟨4, 6, 4, 4⟩ ∧ Board.start.pieceAt 4 4 ≠ some 'q') ∧
      ∃ b1 b2, Board.start.applyMove ⟨4, 6, 4, 4⟩ = some b1 ∧
        b1.undoMove ⟨4, 6, 4, 4⟩ 'q' = some b2 ∧ b2.pieceAt 4 4 = some 'q' ∧
        b2.pieceAt 4 4 ≠ Board.start.pieceAt 4 4 ∧ b2 ≠ Board.start :=
  ⟨⟨by decide, by decide⟩,
    undoMove_wrong_capture Board.start ⟨4, 6, 4, 4⟩ (by decide) 'q' (by decide)⟩

/-- C16: for every occupied square of the grid, the move from the square to itself
is accepted by `isValidMove` and is in `generateMoves`; `applyMove` of it leaves
the square empty and every other cell as it was, so that the number of occupied
cells drops by exactly one. -/
theorem self_move_erases_piece (b : Board) (x y : Int) (hx : 0 ≤ x ∧ x < 8)
    (hy : 0 ≤ y ∧ y < 8) (hocc : ∃ c, b.pieceAt x y = some c ∧ c ≠ '.') :
    b.isValidMove ⟨x, y, x, y⟩ = true ∧ (⟨x, y, x, y⟩ : Move) ∈ b.generateMoves ∧
      ∃ b1, b.applyMove ⟨x, y, x, y⟩ = some b1 ∧ b1.pieceAt x y = some '.' ∧
        (∀ y' x' : Int, (x', y') ≠ (x, y) → b1.pieceAt x' y' = b.pieceAt x' y') ∧
        b1.occupied + 1 = b.occupied := by
  obtain ⟨i, rfl⟩ := exists_index_of_bounds hy
  obtain ⟨j, rfl⟩ := exists_index_of_bounds hx
  obtain ⟨c, hc, hcne⟩ := hocc
  rw [Board.pieceAt_cast] at hc
  have hcell : b.cell i j ≠ '.' := by
    rw [Option.some.inj hc]
    exact hcne
  obtain ⟨h1, h2, b1, h3, h4, h5, h6⟩ := b.self_move_cast j i hcell
  refine ⟨h1, h2, b1, h3, ?_, ?_, h6⟩
  · rw [Board.pieceAt_cast, h4]
  · intro y' x' hne
    unfold Board.pieceAt
    apply Board.read_congr
    intro i' j' hy' hx'
    subst hy' hx'
    apply h5
    intro h
    apply hne
    simp only [Prod.mk.injEq] at h
    rw [h.1, h.2]

/-- A witness of C16: the rook on a8 of the starting board, lost by the move a8a8. -/
theorem self_move_erases_piece_witness :
    (((0 : Int) ≤ 0 ∧ (0 : Int) < 8) ∧ (∃ c, Board.start.pieceAt 0 0 = some c ∧ c ≠ '.')) ∧
      Board.start.isValidMove ⟨0, 0, 0, 0⟩ = true ∧
      (⟨0, 0, 0, 0⟩ : Move) ∈ Board.start.generateMoves ∧
      ∃ b1, Board.start.applyMove ⟨0, 0, 0, 0⟩ = some b1 ∧ b1.pieceAt 0 0 = some '.' ∧
        (∀ y' x' : Int, (x', y') ≠ ((0 : Int), (0 : Int)) →
          b1.pieceAt x' y' = Board.start.pieceAt x' y') ∧
        b1.occupied + 1 = Board.start.occupied :=
  ⟨⟨by decide, 'r', by decide, by decide⟩,
    self_move_erases_piece Board.start 0 0 (by decide) (by decide) ⟨'r', by decide, by decide⟩⟩

/-! ## The constructor -/

theorem construct_step_index (n : Nat) (hn : n < 64) (i j : Fin 8) :
    (i = Fin.ofNat (n / 8) ∧ j = Fin.ofNat (n % 8)) ↔ 8 * i.val + j.val = n := by
  have hi := i.isLt
  have hj := j.isLt
  simp only [Fin.ext_iff, Fin.ofNat, Nat.succ_eq_add_one]
  omega

/-- After the first `n` rounds of the constructor's loop, the cells of row-major
index below `n` hold the layout and the others are still uninitialised. -/
theorem construct_rounds (uninit : Board) (n : Nat) (hn : n ≤ 64) (i j : Fin 8) :
    ((List.range n).foldl
        (fun b k => b.set (Fin.ofNat (k / 8)) (Fin.ofNat (k % 8)) (initialBoard.getD k '\x00'))
        uninit).cell i j =
      if 8 * i.val + j.val < n then initialBoard.getD (8 * i.val + j.val) '\x00'
      else uninit.cell i j := by
  induction n with
  | zero => simp
  | succ n ih =>
    rw [List.range_succ, List.foldl_append]
    simp only [List.foldl_cons, List.foldl_nil, Board.cell_set]
    rw [ih (by omega)]
    by_cases h : 8 * i.val + j.val = n
    · rw [if_pos ((construct_step_index n (by omega) i j).mpr h), if_pos (by omega), h]
    · rw [if_neg (fun hh => h ((construct_step_index n (by omega) i j).mp hh))]
      by_cases h2 : 8 * i.val + j.val < n
      · rw [if_pos h2, if_pos (by omega)]
      · rw [if_neg h2, if_neg (by omega)]

theorem Board.construct_cell (uninit : Board) (i j : Fin 8) :
    (Board.construct uninit).cell i j = initialBoard.getD (8 * i.val + j.val) '\x00' := by
  unfold Board.construct
  rw [construct_rounds uninit 64 (le_refl _) i j, if_pos (by omega)]

theorem Board.construct_eq_start (uninit : Board) : Board.construct uninit = Board.start := by
  apply Board.ext_cells
  intro i j
  unfold Board.start
  rw [Board.construct_cell, Board.construct_cell]

/-- C12: whatever the array held before, the board built by the constructor has
`pieceAt(x, y) = L[8 * y + x]` for the 64-character layout `L`; rows 0 and 1 hold
16 lowercase pieces, rows 6 and 7 hold 16 uppercase pieces, rows 2 to 5 are
empty, and every cell is `'.'` or one of the twelve codes of `PIECES`. -/
theorem construct_layout (uninit : Board) :
    initialBoard = "rnbqkbnr".toList ++ "pppppppp".toList ++ List.replicate 32 '.' ++
        "PPPPPPPP".toList ++ "RNBQKBNR".toList ∧
    (∀ x y : Fin 8, (Board.construct uninit).pieceAt (x.val : Int) (y.val : Int) =
        initialBoard.get? (8 * y.val + x.val)) ∧
    (∀ x y : Fin 8, y.val ≤ 1 →
      ((Board.construct uninit).cell y x).isLower = true ∧
        (Board.construct uninit).cell y x ∈ PIECES) ∧
    (∀ x y : Fin 8, 2 ≤ y.val → y.val ≤ 5 → (Board.construct uninit).cell y x = '.') ∧
    (∀ x y : Fin 8, 6 ≤ y.val →
      ((Board.construct uninit).cell y x).isUpper = true ∧
        (Board.construct uninit).cell y x ∈ PIECES) ∧
    (∀ x y : Fin 8, (Board.construct uninit).cell y x = '.' ∨
      (Board.construct uninit).cell y x ∈ PIECES) ∧
    (Board.construct uninit).occupied = 32 := by
  rw [Board.construct_eq_start]
  refine ⟨by decide, ?_, by decide!, by decide!, by decide!, by decide!, by decide!⟩
  intro x y
  rw [Board.pieceAt_cast]
  revert x y
  decide!

/-! ## The order of the generated moves -/

theorem Move.lexLt_irrefl (a : Move) : ¬ a.lexLt a := by
  unfold Move.lexLt
  omega

theorem Move.lexLt_mk (sx sy ex ey sx' sy' ex' ey' : Int) :
    (Move.mk sx sy ex ey).lexLt (Move.mk sx' sy' ex' ey') ↔
      sy < sy' ∨ (sy = sy' ∧ (sx < sx' ∨ (sx = sx' ∧ (ey < ey' ∨ (ey = ey' ∧ ex < ex'))))) :=
  Iff.rfl

/-- The nested loops of `generateMoves` with the local variables `ny`, `nx` inlined. -/
theorem Board.generateMoves_eq (b : Board) :
    b.generateMoves =
      indices.flatMap fun y =>
        indices.flatMap fun x =>
          if b.cell y x ≠ '.' then
            offsets.flatMap fun dy =>
              offsets.flatMap fun dx =>
                if (y.val : Int) + dy ≥ 0 ∧ (y.val : Int) + dy < 8 ∧
                    (x.val : Int) + dx ≥ 0 ∧ (x.val : Int) + dx < 8 then
                  [Move.mk (x.val : Int) (y.val : Int) ((x.val : Int) + dx) ((y.val : Int) + dy)]
                else []
          else [] :=
  rfl

theorem Board.generateMoves_pairwise (b : Board) : b.generateMoves.Pairwise Move.lexLt := by
  have hidx : indices.Pairwise (fun a c : Fin 8 => a < c) := by decide
  have hoff : offsets.Pairwise (fun a c : Int => a < c) := by decide
  rw [Board.generateMoves_eq, List.pairwise_flatMap]
  constructor
  · intro y _
    rw [List.pairwise_flatMap]
    constructor
    · intro x _
      split
      · rw [List.pairwise_flatMap]
        constructor
        · intro dy _
          rw [List.pairwise_flatMap]
          constructor
          · intro dx _
            split
            · exact List.pairwise_singleton _ _
            · exact List.Pairwise.nil
          · refine hoff.imp ?_
            intro dx1 dx2 hlt m1 hm1 m2 hm2
            split at hm1 <;> split at hm2 <;>
              simp only [List.mem_singleton, List.not_mem_nil] at hm1 hm2
            subst hm1 hm2
            rw [Move.lexLt_mk]
            omega
        · refine hoff.imp ?_
          intro dy1 dy2 hlt m1 hm1 m2 hm2
          simp only [List.mem_flatMap] at hm1 hm2
          obtain ⟨dx1, -, hm1⟩ := hm1
          obtain ⟨dx2, -, hm2⟩ := hm2
          split at hm1 <;> split at hm2 <;>
            simp only [List.mem_singleton, List.not_mem_nil] at hm1 hm2
          subst hm1 hm2
          rw [Move.lexLt_mk]
          omega
      · exact List.Pairwise.nil
    · refine hidx.imp ?_
      intro x1 x2 hlt m1 hm1 m2 hm2
      have hx : (x1.val : Int) < (x2.val : Int) := by
        have : x1.val < x2.val := hlt
        omega
      split at hm1 <;> split at hm2 <;>
        simp only [List.mem_flatMap, List.not_mem_nil] at hm1 hm2
      obtain ⟨dy1, -, dx1, -, hm1⟩ := hm1
      obtain ⟨dy2, -, dx2, -, hm2⟩ := hm2
      split at hm1 <;> split at hm2 <;>
        simp only [List.mem_singleton, List.not_mem_nil] at hm1 hm2
      subst hm1 hm2
      rw [Move.lexLt_mk]
      omega
  · refine hidx.imp ?_
    intro y1 y2 hlt m1 hm1 m2 hm2
    have hy : (y1.val : Int) < (y2.val : Int) := by
      have : y1.val < y2.val := hlt
      omega
    simp only [List.mem_flatMap] at hm1 hm2
    obtain ⟨x1, -, hm1⟩ := hm1
    obtain ⟨x2, -, hm2⟩ := hm2
    split at hm1 <;> split at hm2 <;>
      simp only [List.mem_flatMap, List.not_mem_nil] at hm1 hm2
    obtain ⟨dy1, -, dx1, -, hm1⟩ := hm1
    obtain ⟨dy2, -, dx2, -, hm2⟩ := hm2
    split at hm1 <;> split at hm2 <;>
      simp only [List.mem_singleton, List.not_mem_nil] at hm1 hm2
    subst hm1 hm2
    rw [Move.lexLt_mk]
    omega

/-- C15: the list of `generateMoves` is strictly increasing in the lexicographic
order of `(startY, startX, endY, endX)`: each move is below every move that
comes after it. Consequently the list has no duplicate. -/
theorem generateMoves_strictly_increasing (b : Board) :
    b.generateMoves.Pairwise Move.lexLt ∧ b.generateMoves.Nodup := by
  have h := b.generateMoves_pairwise
  refine ⟨h, ?_⟩
  unfold List.Nodup
  refine h.imp ?_
  intro a c hlt heq
  subst heq
  exact Move.lexLt_irrefl a hlt

/-! ## Four-character texts -/

/-- C20: a text of exactly four characters parses to a move whose four coordinates
all lie in `[0, 8)` exactly when its first and third characters are in
`a`..`h` and its second and fourth in `1`..`8`; so a four-character text with a
character outside these is parsed to a move that `isValidMove` rejects on every
board. -/
theorem parseMove_inBounds_iff_wellFormed (signedChar : Bool) (moveStr : List Byte)
    (hlen : moveStr.length = 4) :
    ∃ c0 c1 c2 c3 m, moveStr = [c0, c1, c2, c3] ∧ parseMove signedChar moveStr = some m ∧
      (((0 ≤ m.startX ∧ m.startX < 8) ∧ (0 ≤ m.startY ∧ m.startY < 8) ∧
          (0 ≤ m.endX ∧ m.endX < 8) ∧ (0 ≤ m.endY ∧ m.endY < 8)) ↔
        (isFileChar c0 ∧ isRankChar c1 ∧ isFileChar c2 ∧ isRankChar c3)) ∧
      (¬ (isFileChar c0 ∧ isRankChar c1 ∧ isFileChar c2 ∧ isRankChar c3) →
        ∀ b : Board, b.isValidMove m = false) := by
  match moveStr, hlen with
  | [c0, c1, c2, c3], _ =>
    refine ⟨c0, c1, c2, c3, _, rfl, parseMove_cons4 signedChar c0 c1 c2 c3 [], ?_, ?_⟩
    · exact parsed_inBounds_iff signedChar c0 c1 c2 c3
    · intro hbad b
      exact b.isValidMove_of_not_inBounds
        (fun h => hbad ((parsed_inBounds_iff signedChar c0 c1 c2 c3).mp h))

/-- A witness of C20: the text of the bytes `e9 32 65 34`, whose first byte is the
negative value -23 as a signed `char` and parses to the file -120. -/
theorem parseMove_inBounds_iff_wellFormed_witness :
    ([0xe9, 0x32, 0x65, 0x34] : List Byte).length = 4 ∧
      (∃ c0 c1 c2 c3 m, ([0xe9, 0x32, 0x65, 0x34] : List Byte) = [c0, c1, c2, c3] ∧
        parseMove true [0xe9, 0x32, 0x65, 0x34] = some m ∧
        (((0 ≤ m.startX ∧ m.startX < 8) ∧ (0 ≤ m.startY ∧ m.startY < 8) ∧
            (0 ≤ m.endX ∧ m.endX < 8) ∧ (0 ≤ m.endY ∧ m.endY < 8)) ↔
          (isFileChar c0 ∧ isRankChar c1 ∧ isFileChar c2 ∧ isRankChar c3)) ∧
        (¬ (isFileChar c0 ∧ isRankChar c1 ∧ isFileChar c2 ∧ isRankChar c3) →
          ∀ b : Board, b.isValidMove m = false)) ∧
      parseMove true [0xe9, 0x32, 0x65, 0x34] =
        some { startX := -120, startY := 6, endX := 4, endY := 4 } ∧
      parseMove false [0xe9, 0x32, 0x65, 0x34] =
        some { startX := 136, startY := 6, endX := 4, endY := 4 } :=
  ⟨by decide, parseMove_inBounds_iff_wellFormed true [0xe9, 0x32, 0x65, 0x34] (by decide),
    by decide, by decide⟩

/-! ## The constant evaluator on a board with enough pieces -/

theorem maxLoop_zero (child : Board → Int → Int → Option (Int × Board)) (beta : Int)
    (b : Board) :
    ∀ (l : List Move),
      (∀ m ∈ l, m.inBounds ∧ ∀ a be, child (b.moved m) a be = some (0, b.moved m)) →
      ∀ alpha, maxLoop child beta l b 0 alpha = some (0, b) := by
  intro l
  induction l with
  | nil => intro _ _; rfl
  | cons m rest ih =>
    intro hl alpha
    have ht := tryMove_eq_some (fun b' => child b' alpha beta) b (hl m (List.mem_cons_self _ _)).1
      ((hl m (List.mem_cons_self _ _)).2 alpha beta)
    unfold maxLoop
    simp only [ht, max_self]
    by_cases hcut : beta ≤ max alpha 0
    · rw [if_pos hcut]
    · rw [if_neg hcut]
      exact ih (fun m' hm' => hl m' (List.mem_cons_of_mem _ hm')) _

theorem minLoop_zero (child : Board → Int → Int → Option (Int × Board)) (alpha : Int)
    (b : Board) :
    ∀ (l : List Move),
      (∀ m ∈ l, m.inBounds ∧ ∀ a be, child (b.moved m) a be = some (0, b.moved m)) →
      ∀ beta, minLoop child alpha l b 0 beta = some (0, b) := by
  intro l
  induction l with
  | nil => intro _ _; rfl
  | cons m rest ih =>
    intro hl beta
    have ht := tryMove_eq_some (fun b' => child b' alpha beta) b (hl m (List.mem_cons_self _ _)).1
      ((hl m (List.mem_cons_self _ _)).2 alpha beta)
    unfold minLoop
    simp only [ht, min_self]
    by_cases hcut : min beta 0 ≤ alpha
    · rw [if_pos hcut]
    · rw [if_neg hcut]
      exact ih (fun m' hm' => hl m' (List.mem_cons_of_mem _ hm')) _

theorem Board.generateMoves_ne_nil (b : Board) (h : 0 < b.occupied) : b.generateMoves ≠ [] := by
  obtain ⟨m, hm, -⟩ := b.exists_move_to_fewer h
  intro hnil
  rw [hnil] at hm
  cases hm

/-- With the evaluator of the source, on a board with at least `depth` pieces,
`minimax` returns 0 in every window: no board on the way down is empty, so
every loop sees a first child, of value 0. -/
theorem minimax_eq_zero :
    ∀ (fuel : Nat) (b : Board) (depth alpha beta : Int) (mx : Bool),
      0 ≤ depth → depth < fuel → depth ≤ b.occupied →
      minimaxWith ChessAI.evaluate fuel b depth alpha beta mx = some (0, b) := by
  intro fuel
  induction fuel with
  | zero => intro b depth _ _ _ h0 hf; exact absurd hf (by simp; omega)
  | succ fuel ih =>
    intro b depth alpha beta mx h0 hf hocc
    unfold minimaxWith
    by_cases hd : depth = 0
    · rw [if_pos hd]
      rfl
    · rw [if_neg hd]
      have hlt : INT_MIN < depth := INT_MIN_lt_of_nonneg h0
      have hpos : 0 < b.occupied := by omega
      have hkids : ∀ m ∈ b.generateMoves, ∀ side, m.inBounds ∧ ∀ a be,
          minimaxWith ChessAI.evaluate fuel (b.moved m) (depth - 1) a be side
            = some (0, b.moved m) := by
        intro m hm side
        refine ⟨b.generateMoves_inBounds hm, fun a be => ?_⟩
        have := b.occupied_moved_bounds hm
        exact ih _ _ _ _ side (by omega) (by push_cast at hf; omega) (by omega)
      obtain ⟨m0, rest, hlist⟩ := List.exists_cons_of_ne_nil (b.generateMoves_ne_nil hpos)
      have hm0 : m0 ∈ b.generateMoves := by rw [hlist]; exact List.mem_cons_self _ _
      have hrest : ∀ m ∈ rest, m ∈ b.generateMoves := by
        intro m hm
        rw [hlist]
        exact List.mem_cons_of_mem _ hm
      have hmm : INT_MIN ≤ 0 := by decide
      have hMM : (0 : Int) ≤ INT_MAX := by decide
      simp only [if_pos hlt]
      rw [hlist]
      cases mx with
      | true =>
        simp only [if_true]
        unfold maxLoop
        have ht := tryMove_eq_some (fun b' =>
            minimaxWith ChessAI.evaluate fuel b' (depth - 1) alpha beta false) b
          (hkids m0 hm0 false).1 ((hkids m0 hm0 false).2 alpha beta)
        simp only [ht, max_eq_right hmm]
        by_cases hcut : beta ≤ max alpha 0
        · rw [if_pos hcut]
        · rw [if_neg hcut]
          exact maxLoop_zero _ beta b rest (fun m hm => hkids m (hrest m hm) false) _
      | false =>
        simp only [Bool.false_eq_true, if_false]
        unfold minLoop
        have ht := tryMove_eq_some (fun b' =>
            minimaxWith ChessAI.evaluate fuel b' (depth - 1) alpha beta true) b
          (hkids m0 hm0 true).1 ((hkids m0 hm0 true).2 alpha beta)
        simp only [ht, min_eq_right hMM]
        by_cases hcut : min beta 0 ≤ alpha
        · rw [if_pos hcut]
        · rw [if_neg hcut]
          exact minLoop_zero _ alpha b rest (fun m hm => hkids m (hrest m hm) true) _

theorem rootLoop_zero (child : Board → Option (Int × Board)) (b : Board) :
    ∀ (l : List Move),
      (∀ m ∈ l, m.inBounds ∧ child (b.moved m) = some (0, b.moved m)) →
      ∀ bestMove, rootLoop child l b bestMove 0 = some (bestMove, b) := by
  intro l
  induction l with
  | nil => intro _ _; rfl
  | cons m rest ih =>
    intro hl bestMove
    have ht := tryMove_eq_some child b (hl m (List.mem_cons_self _ _)).1
      (hl m (List.mem_cons_self _ _)).2
    unfold rootLoop
    simp only [ht, gt_iff_lt, lt_self_iff_false, if_false]
    exact ih (fun m' hm' => hl m' (List.mem_cons_of_mem _ hm')) _

/-- With the evaluator of the source, on a board with at least `depth` pieces,
every root candidate gets the value 0 and the first one is kept. -/
theorem findBestMove_head_of_enough_pieces (fuel : Nat) (b : Board) (depth : Int)
    (h1 : 1 ≤ depth) (hf : depth ≤ fuel) (hocc : depth ≤ b.occupied) :
    (∀ m ∈ b.generateMoves, branchValue ChessAI.evaluate fuel b depth m = some 0) ∧
      ∃ m rest, b.generateMoves = m :: rest ∧
        ChessAI.findBestMove fuel b depth = some (some m, b) := by
  have hlt : INT_MIN < depth := INT_MIN_lt_of_nonneg (by omega)
  have hkids : ∀ m ∈ b.generateMoves, m.inBounds ∧
      minimaxWith ChessAI.evaluate fuel (b.moved m) (depth - 1) INT_MIN INT_MAX false
        = some (0, b.moved m) := by
    intro m hm
    have := b.occupied_moved_bounds hm
    exact ⟨b.generateMoves_inBounds hm,
      minimax_eq_zero fuel _ _ _ _ false (by omega) (by omega) (by omega)⟩
  constructor
  · intro m hm
    rw [branchValue_eq _ _ _ _ (hkids m hm).1, (hkids m hm).2]
    rfl
  · obtain ⟨m0, rest, hlist⟩ :=
      List.exists_cons_of_ne_nil (b.generateMoves_ne_nil (by omega))
    have hm0 : m0 ∈ b.generateMoves := by rw [hlist]; exact List.mem_cons_self _ _
    refine ⟨m0, rest, hlist, ?_⟩
    unfold ChessAI.findBestMove findBestMoveWith
    simp only [if_pos hlt]
    rw [hlist]
    unfold rootLoop
    have ht := tryMove_eq_some (fun b' =>
        minimaxWith ChessAI.evaluate fuel b' (depth - 1) INT_MIN INT_MAX false) b
      (hkids m0 hm0).1 (hkids m0 hm0).2
    simp only [ht]
    rw [if_pos (by decide)]
    apply rootLoop_zero
    intro m hm
    exact hkids m (by rw [hlist]; exact List.mem_cons_of_mem _ hm)

/-- C17: for every depth `d` of 1 or more and every board with at least `d` occupied
cells, every root candidate has the minimax value 0 and `findBestMove` returns
the first element of `generateMoves`; on the starting layout at depth 3 that is
the move `(0, 0, 0, 0)`. -/
theorem findBestMove_returns_first_move (fuel : Nat) (b : Board) (depth : Int)
    (h1 : 1 ≤ depth) (hf : depth ≤ fuel) (hocc : depth ≤ b.occupied) :
    (∀ m ∈ b.generateMoves, branchValue ChessAI.evaluate fuel b depth m = some 0) ∧
      (∃ m rest, b.generateMoves = m :: rest ∧
        ChessAI.findBestMove fuel b depth = some (some m, b)) ∧
      ChessAI.findBestMove 3 Board.start 3 = some (some ⟨0, 0, 0, 0⟩, Board.start) := by
  obtain ⟨hv, hfirst⟩ := findBestMove_head_of_enough_pieces fuel b depth h1 hf hocc
  refine ⟨hv, hfirst, ?_⟩
  obtain ⟨-, m, rest, hlist, hres⟩ :=
    findBestMove_head_of_enough_pieces 3 Board.start 3 (by decide) (by decide) (by decide!)
  have hhead : Board.start.generateMoves.head? = some ⟨0, 0, 0, 0⟩ := by decide!
  rw [hlist] at hhead
  simp only [List.head?_cons, Option.some.injEq] at hhead
  rw [hres, hhead]

/-- A witness of C17: the board with a king on a8 and a king on h1 at depth 2. -/
theorem findBestMove_returns_first_move_witness :
    ((1 : Int) ≤ 2 ∧ (2 : Int) ≤ (2 : Nat) ∧
      (2 : Int) ≤ ((Board.empty.set 0 0 'k').set 7 7 'K').occupied) ∧
    (∀ m ∈ ((Board.empty.set 0 0 'k').set 7 7 'K').generateMoves,
      branchValue ChessAI.evaluate 2 ((Board.empty.set 0 0 'k').set 7 7 'K') 2 m = some 0) ∧
    (∃ m rest, ((Board.empty.set 0 0 'k').set 7 7 'K').generateMoves = m :: rest ∧
      ChessAI.findBestMove 2 ((Board.empty.set 0 0 'k').set 7 7 'K') 2 =
        some (some m, (Board.empty.set 0 0 'k').set 7 7 'K')) ∧
    ChessAI.findBestMove 3 Board.start 3 = some (some ⟨0, 0, 0, 0⟩, Board.start) :=
  ⟨⟨by decide, by decide, by decide!⟩,
    findBestMove_returns_first_move 2 ((Board.empty.set 0 0 'k').set 7 7 'K') 2 (by decide)
      (by decide) (by decide!)⟩

/-! ## Some root candidate beats the initial `bestValue` -/

theorem le_foldl_max_of_mem (l : List Int) (init x : Int) (hx : x ∈ l) :
    x ≤ l.foldl max init := by
  induction l generalizing init with
  | nil => cases hx
  | cons y ys ih =>
    simp only [List.foldl_cons]
    rcases List.mem_cons.mp hx with h | h
    · subst h
      have := le_foldl_max ys (max init x)
      omega
    · exact ih (max init y) h

theorem evaluate_range (b : Board) :
    INT_MIN ≤ ChessAI.evaluate b ∧ ChessAI.evaluate b ≤ INT_MAX := by
  unfold ChessAI.evaluate
  decide

/-- With the full window the pruned search returns the plain minimax value. -/
theorem minimaxWith_full_window (ev : Board → Int)
    (hev : ∀ b, INT_MIN ≤ ev b ∧ ev b ≤ INT_MAX) (fuel : Nat) (b : Board) (depth : Int)
    (mx : Bool) (h0 : 0 ≤ depth) (hf : depth < fuel) :
    minimaxWith ev fuel b depth INT_MIN INT_MAX mx =
      some (treeValue ev depth.toNat b mx, b) := by
  obtain ⟨r, hr, hw1, hw2, hw3⟩ := minimaxWith_window ev fuel b depth INT_MIN INT_MAX mx h0 hf
    (le_refl _) (by decide) (le_refl _)
  obtain ⟨hv1, hv2⟩ := treeValue_range ev hev depth.toNat b mx
  have : r = treeValue ev depth.toNat b mx := by
    by_cases h1 : r ≤ INT_MIN
    · have := hw1 h1
      omega
    · by_cases h2 : r < INT_MAX
      · exact (hw2 (by omega) h2).symm
      · have := hw3 (by omega)
        omega
  rw [hr, this]

theorem treeValue_no_pieces (n : Nat) (b : Board) (h : b.occupied = 0) :
    0 ≤ treeValue ChessAI.evaluate n b false := by
  cases n with
  | zero => exact le_refl _
  | succ n =>
    simp only [treeValue, b.generateMoves_eq_nil h, List.map_nil, List.foldl_nil]
    decide

/-- The side to move keeps the value at 0 or above: with one piece left it moves
the piece onto its own square, with more it keeps two pieces on the board; the
opponent's replies then never leave it an empty board. -/
theorem treeValue_nonneg (n : Nat) :
    (∀ b : Board, 1 ≤ b.occupied → 0 ≤ treeValue ChessAI.evaluate n b true) ∧
      (∀ b : Board, 2 ≤ b.occupied → 0 ≤ treeValue ChessAI.evaluate n b false) ∧
      (∀ b : Board, 1 ≤ b.occupied →
        ∃ m ∈ b.generateMoves, 0 ≤ treeValue ChessAI.evaluate n (b.moved m) false) := by
  induction n with
  | zero =>
    refine ⟨fun _ _ => le_refl _, fun _ _ => le_refl _, fun b hb => ?_⟩
    obtain ⟨m, hm, -⟩ := b.exists_move_to_fewer (by omega)
    exact ⟨m, hm, le_refl _⟩
  | succ n ih =>
    obtain ⟨ihA, ihB, ihC⟩ := ih
    have hA : ∀ b : Board, 1 ≤ b.occupied → 0 ≤ treeValue ChessAI.evaluate (n + 1) b true := by
      intro b hb
      obtain ⟨m, hm, hv⟩ := ihC b hb
      simp only [treeValue]
      exact le_trans hv (le_foldl_max_of_mem _ _ _ (List.mem_map_of_mem _ hm))
    have hB : ∀ b : Board, 2 ≤ b.occupied → 0 ≤ treeValue ChessAI.evaluate (n + 1) b false := by
      intro b hb
      simp only [treeValue]
      apply le_foldl_min _ _ _ (by decide)
      intro x hx
      obtain ⟨m, hm, rfl⟩ := List.mem_map.mp hx
      have := b.occupied_moved_bounds hm
      exact ihA _ (by omega)
    refine ⟨hA, hB, ?_⟩
    intro b hb
    by_cases h2 : 2 ≤ b.occupied
    · obtain ⟨m, hm, hocc⟩ := b.exists_move_keeping_two h2
      exact ⟨m, hm, hB _ hocc⟩
    · obtain ⟨m, hm, hocc⟩ := b.exists_move_to_fewer (by omega)
      exact ⟨m, hm, treeValue_no_pieces _ _ (by omega)⟩

/-- At a depth of 1 or more, `findBestMove` returns, and ends in the state that
`BestSoFar` describes for the whole list of candidates. -/
theorem findBestMoveWith_bestSoFar (ev : Board → Int)
    (hev : ∀ b, INT_MIN ≤ ev b ∧ ev b ≤ INT_MAX) (fuel : Nat) (b : Board) (depth : Int)
    (h1 : 1 ≤ depth) (hf : depth ≤ fuel) :
    ∃ bestMove bestValue, findBestMoveWith ev fuel b depth = some (bestMove, b) ∧
      BestSoFar (fun m => treeValue ev (depth - 1).toNat (b.moved m) false) b.generateMoves
        bestMove bestValue := by
  have hlt : INT_MIN < depth := INT_MIN_lt_of_nonneg (by omega)
  obtain ⟨best, bv, hrun, hinv⟩ := rootLoop_bestSoFar
    (fun b' => if INT_MIN < depth then minimaxWith ev fuel b' (depth - 1) INT_MIN INT_MAX false
      else none) b (fun b' => treeValue ev (depth - 1).toNat b' false)
    (by
      intro b'
      simp only [if_pos hlt]
      exact minimaxWith_full_window ev hev fuel b' (depth - 1) false (by omega) (by omega))
    b.generateMoves (fun m hm => b.generateMoves_inBounds hm) [] none INT_MIN
    (Or.inl ⟨rfl, rfl, by simp⟩)
  rw [List.nil_append] at hinv
  exact ⟨best, bv, hrun, hinv⟩

theorem findBestMove_mem_of_occupied (fuel : Nat) (b : Board) (depth : Int)
    (h1 : 1 ≤ depth) (hf : depth ≤ fuel) (hocc : 1 ≤ b.occupied) :
    (∃ m ∈ b.generateMoves, ∃ v,
        branchValue ChessAI.evaluate fuel b depth m = some v ∧ INT_MIN < v) ∧
      ∃ m ∈ b.generateMoves, ChessAI.findBestMove fuel b depth = some (some m, b) := by
  obtain ⟨m0, hm0, hv0⟩ := (treeValue_nonneg (depth - 1).toNat).2.2 b hocc
  have hmm : INT_MIN < 0 := by decide
  constructor
  · refine ⟨m0, hm0, _, ?_, lt_of_lt_of_le hmm hv0⟩
    rw [branchValue_eq _ _ _ _ (b.generateMoves_inBounds hm0),
      minimaxWith_full_window ChessAI.evaluate evaluate_range fuel _ (depth - 1) false
        (by omega) (by omega)]
    rfl
  · obtain ⟨best, bv, hrun, hinv⟩ :=
      findBestMoveWith_bestSoFar ChessAI.evaluate evaluate_range fuel b depth h1 hf
    rcases hinv with ⟨-, -, hall⟩ | ⟨pre, m, post, hlist, hb, -, -, -⟩
    · exfalso
      have := hall m0 hm0
      simp only at this
      omega
    · subst hb
      exact ⟨m, by rw [hlist]; simp, hrun⟩

/-- C18: for every board with an occupied cell and every depth of 1 or more, some
root candidate gets a minimax value above `INT_MIN`, the initial `bestValue`, and
`findBestMove` returns a move of `generateMoves`, never the uninitialised
`bestMove`. -/
theorem findBestMove_returns_generated_move (fuel : Nat) (b : Board) (depth : Int)
    (h1 : 1 ≤ depth) (hf : depth ≤ fuel) (hocc : ∃ y x : Fin 8, b.cell y x ≠ '.') :
    (∃ m ∈ b.generateMoves, ∃ v,
        branchValue ChessAI.evaluate fuel b depth m = some v ∧ INT_MIN < v) ∧
      ∃ m ∈ b.generateMoves, ChessAI.findBestMove fuel b depth = some (some m, b) := by
  apply findBestMove_mem_of_occupied fuel b depth h1 hf
  obtain ⟨y, x, hc⟩ := hocc
  unfold Board.occupied
  exact Finset.card_pos.mpr ⟨(y, x), by simp [hc]⟩

/-- A witness of C18: the board whose only piece is a king on d5, at depth 3, where
every candidate but the move of the king onto its own square has the value
`INT_MIN`. -/
theorem findBestMove_returns_generated_move_witness :
    ((1 : Int) ≤ 3 ∧ (3 : Int) ≤ (3 : Nat) ∧
      ∃ y x : Fin 8, (Board.empty.set 3 3 'K').cell y x ≠ '.') ∧
    (∃ m ∈ (Board.empty.set 3 3 'K').generateMoves, ∃ v,
        branchValue ChessAI.evaluate 3 (Board.empty.set 3 3 'K') 3 m = some v ∧ INT_MIN < v) ∧
    (∃ m ∈ (Board.empty.set 3 3 'K').generateMoves,
      ChessAI.findBestMove 3 (Board.empty.set 3 3 'K') 3 =
        some (some m, Board.empty.set 3 3 'K')) ∧
    branchValue ChessAI.evaluate 3 (Board.empty.set 3 3 'K') 3 ⟨3, 3, 2, 2⟩ = some INT_MIN ∧
    ChessAI.findBestMove 3 (Board.empty.set 3 3 'K') 3 =
      some (some ⟨3, 3, 3, 3⟩, Board.empty.set 3 3 'K') :=
  ⟨⟨by decide, by decide, 3, 3, by decide⟩,
    (findBestMove_returns_generated_move 3 (Board.empty.set 3 3 'K') 3 (by decide) (by decide)
      ⟨3, 3, by decide⟩).1,
    (findBestMove_returns_generated_move 3 (Board.empty.set 3 3 'K') 3 (by decide) (by decide)
      ⟨3, 3, by decide⟩).2,
    by decide!, by decide!⟩

end ChessBoard
